import Mathlib

/-!
Verification of the hobbes Bitcask-style key-value store.

This file shallowly embeds the parts of the program that the claims are
about, translated from the Rust sources:
  * `src/engine/bitcask.rs`        (the Bitcask engine: open / set / get / remove)
  * `src/engine/bitcask/compaction.rs` (the compactor)
  * `src/engine/sled_engine.rs`    (the sibling backend guard)
  * `src/thread_pool.rs`           (the shared-queue worker pool)

Modelling conventions:
  * On-disk segment files are lists of decoded `LogEntry` records; byte offsets
    are abstracted to record positions (the code only ever seeks back to an
    offset it previously recorded at a record boundary, so the abstraction is
    order- and identity-preserving).  The byte size of an encoded record, used
    only by the compaction size check, is an explicit parameter
    `sz : LogEntry → Nat` because the MessagePack encoder is an external crate.
  * `Local::now()` is modelled by a clock stream `ts : Nat → Nat` together with
    a per-store counter of clock reads; the code consumes `ts c` and increments
    the counter at each `Local::now()` call, in source order.
  * The engine mutex is uncontended in the single-threaded executions the
    claims quantify over, so locking is not part of the state model; the
    statement-order facts about the lock are captured by the event traces
    `setEvents` / `removeEvents` below.
  * The `HashMap` iteration order used by replay is arbitrary in the code, so
    the replay order of segment ids is an explicit parameter of `openBitcask`.
-/

namespace Hobbes

/-- On-disk record, one per write or delete (`LogEntry` in `bitcask.rs`).
Timestamps are wall-clock instants, modelled as naturals. -/
structure LogEntry where
  key : String
  val : String
  timestamp : Nat
deriving DecidableEq

/-- The reserved tombstone value (`TOMBSTONE` in `bitcask.rs`). -/
def TOMBSTONE : String := "!tomb!"

/-- Compaction threshold in bytes (`MAX_FILE_SIZE` in `compaction.rs`). -/
def MAX_FILE_SIZE : Nat := 1000000

/-- In-memory index entry (`ValueMetadata` in `bitcask.rs`). -/
structure ValueMetadata where
  log_pointer : Nat
  log_id : Nat
  timestamp : Nat
deriving DecidableEq

/-- The in-memory index: key to `ValueMetadata`, modelling the code's
`HashMap<String, ValueMetadata>` as an association list with unique keys. -/
abbrev Index := List (String × ValueMetadata)

/-- HashMap lookup. -/
def lookupIdx (idx : Index) (k : String) : Option ValueMetadata :=
  match idx with
  | [] => none
  | (k2, md) :: rest => if k2 = k then some md else lookupIdx rest k

/-- HashMap remove. -/
def eraseKey (idx : Index) (k : String) : Index :=
  idx.filter (fun p => p.1 != k)

/-- HashMap insert (replacing any previous binding). -/
def insertIdx (idx : Index) (k : String) (md : ValueMetadata) : Index :=
  (k, md) :: eraseKey idx k

/-- The files of the logs directory: segment id to decoded record list,
modelling both the directory contents and the `log_readers` map. -/
abbrev Segments := List (Nat × List LogEntry)

/-- Look up a segment by id. -/
def getSeg (segs : Segments) (id : Nat) : Option (List LogEntry) :=
  match segs with
  | [] => none
  | (i, s) :: rest => if i = id then some s else getSeg rest id

/-- Append one record to the segment with the given id (no-op if absent). -/
def appendSeg (segs : Segments) (id : Nat) (e : LogEntry) : Segments :=
  segs.map (fun p => if p.1 = id then (p.1, p.2 ++ [e]) else p)

/-- Create an empty segment with the given id if not already present
(models `OpenOptions::new().create(true)`). -/
def createSeg (segs : Segments) (id : Nat) : Segments :=
  if (getSeg segs id).isSome then segs else segs ++ [(id, [])]

/-- Replace or add a segment binding (models `HashMap::insert` on readers). -/
def setSeg (segs : Segments) (id : Nat) (content : List LogEntry) : Segments :=
  if (getSeg segs id).isSome then
    segs.map (fun p => if p.1 = id then (p.1, content) else p)
  else segs ++ [(id, content)]

/-- The segment ids present. -/
def segIds (segs : Segments) : List Nat := segs.map (fun p => p.1)

/-- Byte length of a segment file, given the encoded size of each record. -/
def segByteLen (sz : LogEntry → Nat) (seg : List LogEntry) : Nat :=
  (seg.map sz).sum

/-- Errors surfaced by the engine.  The `HobbesError` enum declaration lives in
the crate root, which is not among the provided sources; the variants here are
the ones observed at use sites in `bitcask.rs`, `compaction.rs`,
`sled_engine.rs` (`IoError`, `CliError`, `KeyNotFoundError`,
`LogReaderNotFoundError`, `CompactionError`, `SledDbError`) plus the
conversions required by the `?` operator on `rmp_serde` results and
`parse::<u64>()`. -/
inductive HobbesError where
  | IoError : HobbesError
  | SerializationError : HobbesError
  | DeserializationError : HobbesError
  | KeyNotFoundError : HobbesError
  | CliError : String → HobbesError
  | LogReaderNotFoundError : String → HobbesError
  | CompactionError : String → HobbesError
  | SledDbError : HobbesError
  | ParseIntError : HobbesError
deriving DecidableEq

/-- The error message produced by `BitcaskEngine::open` when the sled backend
directory exists (`bitcask.rs` line 85). -/
def sledConflictMsg : String :=
  "sled storage engine used previously, using the bitcask engine is an invalid operation"

/-- The error message produced by `SledEngine::open` when the bitcask logs
directory exists (`sled_engine.rs` line 19). -/
def bitcaskConflictMsg : String :=
  "bitcask storage engine used previously, using the sled engine is an invalid operation"

/-- The error message produced when the root path has an extension
(`bitcask.rs` line 95). -/
def extensionMsg : String := "invalid log directory path, contains an extension"

/-- Abstract error kinds of spec section 7. -/
inductive ErrKind where
  | Io | Codec | KeyNotFound | BackendConflict | InvalidPath
  | MissingReader | Compaction | ChannelSend | Other
deriving DecidableEq

/-- Modelled from the spec: the `HobbesError` enum declaration (crate root) is
not among the provided sources, so the spec section 7 error taxonomy cannot be
read off a Rust declaration.  This classification assigns each error value the
spec kind of the condition that produces it: the two backend-conflict
`CliError` messages are the `BackendConflict` kind ("sibling backend already
installed at root"), the extension message is `InvalidPath`, and the remaining
variants map by their use sites. -/
def errorKind : HobbesError → ErrKind
  | .IoError => .Io
  | .SerializationError => .Codec
  | .DeserializationError => .Codec
  | .KeyNotFoundError => .KeyNotFound
  | .CliError msg =>
      if msg = sledConflictMsg ∨ msg = bitcaskConflictMsg then .BackendConflict
      else if msg = extensionMsg then .InvalidPath
      else .Other
  | .LogReaderNotFoundError _ => .MissingReader
  | .CompactionError _ => .Compaction
  | .SledDbError => .Other
  | .ParseIntError => .Other

/-- The mutable engine state behind the mutex (`BitcaskStore` in
`bitcask.rs`), plus the ambient clock-read counter.  `log_writer` records
whether the lazily materialized writer handle is present; `log_readers` is
identified with the segment files themselves (the code re-enumerates the
directory whenever the reader map is absent, which recreates exactly that
map). -/
structure BitcaskStore where
  mem_index : Index
  segments : Segments
  current_log_id : Nat
  log_writer : Bool
  clock : Nat
deriving DecidableEq

/-- `BitcaskStore::log_writer_init`: if the writer is absent, open the active
segment file with `create(true).append(true)` and register a reader for it. -/
def log_writer_init (st : BitcaskStore) : BitcaskStore :=
  if st.log_writer then st
  else { st with segments := createSeg st.segments st.current_log_id,
                 log_writer := true }

/-- Byte length of the active segment file (the writer's `metadata().len()`). -/
def activeLen (sz : LogEntry → Nat) (st : BitcaskStore) : Nat :=
  match getSeg st.segments st.current_log_id with
  | some seg => segByteLen sz seg
  | none => 0

/-- `BitcaskEngine::get_val_metadata`: look up the index; on a hit, seek the
reader of the referenced segment to the stored offset and decode one record;
a tombstone reads as absent. -/
def get_val_metadata (st : BitcaskStore) (key : String) :
    Except HobbesError (Option (String × ValueMetadata)) :=
  match lookupIdx st.mem_index key with
  | none => .ok none
  | some md =>
    match getSeg st.segments md.log_id with
    | none => .error (.LogReaderNotFoundError
        ("Log " ++ toString md.log_id ++ " does not have a valid reader"))
    | some seg =>
      match seg[md.log_pointer]? with
      | none => .error .DeserializationError
      | some e =>
        if e.val = TOMBSTONE then .ok none else .ok (some (e.val, md))

/-- `BitcaskEngine::get`. -/
def getOp (st : BitcaskStore) (key : String) : Except HobbesError (Option String) :=
  match get_val_metadata st key with
  | .error e => .error e
  | .ok none => .ok none
  | .ok (some (v, _)) => .ok (some v)

/-- Accumulator of the compaction rewrite loop: the staged compacted files,
the current compacted segment id, and the fresh index under construction. -/
structure CompactAcc where
  segs : Segments
  cid : Nat
  idx : Index
deriving DecidableEq

/-- Byte length of the staged compacted file currently being written (the
compaction loop's `current_compact_log_writer.metadata()?.len()`). -/
def compactFileLen (sz : LogEntry → Nat) (acc : CompactAcc) : Nat :=
  match getSeg acc.segs acc.cid with
  | some s => segByteLen sz s
  | none => 0

/-- Rollover step of the compaction loop (`compaction.rs` lines 70-84): when
the staged file reached `MAX_FILE_SIZE` bytes, move to a fresh compacted
segment with the next id. -/
def rollAcc (sz : LogEntry → Nat) (acc : CompactAcc) : CompactAcc :=
  if compactFileLen sz acc ≥ MAX_FILE_SIZE then
    { acc with segs := createSeg acc.segs (acc.cid + 1), cid := acc.cid + 1 }
  else acc

/-- One iteration of the compaction loop (`compaction.rs` lines 66-116): read
the current byte offset of the staged file, roll over to a fresh compacted
segment if it reached `MAX_FILE_SIZE`, fetch the key's live value through the
normal read path, append the rewritten record at the pre-append end of the
staged file and point the fresh index at it, keeping the index timestamp. -/
def compactKey (sz : LogEntry → Nat) (st : BitcaskStore) (acc : CompactAcc)
    (k : String) : Except HobbesError CompactAcc :=
  let acc1 := rollAcc sz acc
  match get_val_metadata st k with
  | .error e => .error e
  | .ok none => .error (.CompactionError
      (k ++ " present in index not found on disk while compacting!"))
  | .ok (some (v, md)) =>
    let ptr := ((getSeg acc1.segs acc1.cid).getD []).length
    .ok { segs := appendSeg acc1.segs acc1.cid { key := k, val := v, timestamp := md.timestamp },
          cid := acc1.cid,
          idx := insertIdx acc.idx k
            { log_pointer := ptr, log_id := acc1.cid, timestamp := md.timestamp } }

/-- The compaction loop over the snapshot of index keys. -/
def compactLoop (sz : LogEntry → Nat) (st : BitcaskStore) :
    List String → CompactAcc → Except HobbesError CompactAcc
  | [], acc => .ok acc
  | k :: rest, acc =>
    match compactKey sz st acc k with
    | .error e => .error e
    | .ok acc2 => compactLoop sz st rest acc2

/-- `BitcaskEngine::compaction_manager`: initialize the writer if absent;
return immediately if the active segment is below the threshold; otherwise
rewrite every indexed key into staged compacted segments (starting from
compacted id 1), swap the staged directory in, install the fresh index, set
`current_log_id` to the last compacted id plus one and drop the writer.  On a
loop error the store is left as it was (the staged directory is outside the
logs directory). -/
def compaction_manager (sz : LogEntry → Nat) (st : BitcaskStore) :
    BitcaskStore × Except HobbesError Unit :=
  let st1 := log_writer_init st
  if activeLen sz st1 < MAX_FILE_SIZE then (st1, .ok ())
  else
    let keys := st1.mem_index.map (fun p => p.1)
    match compactLoop sz st1 keys { segs := [(1, [])], cid := 1, idx := [] } with
    | .error e => (st1, .error e)
    | .ok acc =>
      ({ st1 with mem_index := acc.idx,
                  segments := acc.segs,
                  current_log_id := acc.cid + 1,
                  log_writer := false }, .ok ())

/-- `BitcaskEngine::set`: build the record with a clock read taken before the
lock, acquire the lock, initialize the writer if absent, record the
pre-append end-of-file offset, append, insert an index entry carrying a
second, separate clock read, release the lock and run the compaction check. -/
def setOp (ts : Nat → Nat) (sz : LogEntry → Nat) (key value : String)
    (st : BitcaskStore) : BitcaskStore × Except HobbesError Unit :=
  let tlog := ts st.clock
  let st1 := { st with clock := st.clock + 1 }
  let st2 := log_writer_init st1
  let offset := ((getSeg st2.segments st2.current_log_id).getD []).length
  let entry : LogEntry := { key := key, val := value, timestamp := tlog }
  let st3 := { st2 with segments := appendSeg st2.segments st2.current_log_id entry }
  let tidx := ts st3.clock
  let md : ValueMetadata :=
    { log_pointer := offset, log_id := st3.current_log_id, timestamp := tidx }
  let st4 := { st3 with clock := st3.clock + 1, mem_index := insertIdx st3.mem_index key md }
  compaction_manager sz st4

/-- `BitcaskEngine::remove`: evict the key from the index (failing with
`KeyNotFoundError` when absent), then build and append a tombstone record and
run the compaction check.  `appendOk` injects a write failure at the
`write_all` call; the eviction is not rolled back on error. -/
def removeOp (ts : Nat → Nat) (sz : LogEntry → Nat) (appendOk : Bool)
    (key : String) (st : BitcaskStore) : BitcaskStore × Except HobbesError Unit :=
  match lookupIdx st.mem_index key with
  | none => (st, .error .KeyNotFoundError)
  | some _ =>
    let st1 := { st with mem_index := eraseKey st.mem_index key }
    let tlog := ts st1.clock
    let st2 := { st1 with clock := st1.clock + 1 }
    let st3 := log_writer_init st2
    if appendOk then
      let tomb : LogEntry := { key := key, val := TOMBSTONE, timestamp := tlog }
      let st4 := { st3 with segments := appendSeg st3.segments st3.current_log_id tomb }
      compaction_manager sz st4
    else (st3, .error .IoError)

/-- Rust's `Path::set_extension("")` on a file name: drop everything from the
last dot on, unless the only dot is the leading character. -/
def rustFileStem (name : String) : String :=
  let cs := name.toList
  let dotPositions := (List.range cs.length).filter (fun i => cs.get? i = some '.')
  match dotPositions.getLast? with
  | none => name
  | some i => if i = 0 then name else String.mk (cs.take i)

/-- Value of a list of decimal digit characters. -/
def digitsVal (cs : List Char) : Nat :=
  cs.foldl (fun a c => a * 10 + (c.toNat - 48)) 0

/-- Rust's `str::parse::<u64>()`: an optional leading plus sign, then one or
more decimal digits, with the value within the u64 range. -/
def parseU64 (s : String) : Option Nat :=
  let cs := s.toList
  let cs := match cs with
    | '+' :: rest => rest
    | other => other
  if cs.isEmpty then none
  else if cs.all Char.isDigit then
    if digitsVal cs < 2 ^ 64 then some (digitsVal cs) else none
  else none

/-- Segment id parsed from a directory entry name, as in `open`
(`bitcask.rs` lines 107-116): strip the last extension, then parse as u64. -/
def parseLogId (name : String) : Option Nat :=
  parseU64 (rustFileStem name)

/-- The directory enumeration loop of `open` (`bitcask.rs` lines 105-128):
for each entry, parse the id (propagating the parse failure as an error),
register a reader for it and track the maximum id seen. -/
def enumGo (files : List (String × List LogEntry)) (readers : Segments)
    (latest : Nat) : Except HobbesError (Segments × Nat) :=
  match files with
  | [] => .ok (readers, latest)
  | (name, content) :: rest =>
    match parseLogId name with
    | none => .error .ParseIntError
    | some id => enumGo rest (setSeg readers id content) (max latest id)

/-- Enumerate the logs directory. -/
def enumerateLogs (files : List (String × List LogEntry)) :
    Except HobbesError (Segments × Nat) :=
  enumGo files [] 0

/-- Install or delete an index entry for a replayed record, as in the `match`
of the replay loop (`bitcask.rs` lines 166-176). -/
def replayApply (segId : Nat) (idx : Index) (offset : Nat) (e : LogEntry) : Index :=
  if e.val = TOMBSTONE then eraseKey idx e.key
  else insertIdx idx e.key
    { log_pointer := offset, log_id := segId, timestamp := e.timestamp }

/-- Process one decoded record during replay (`bitcask.rs` lines 154-178):
when an index entry for the key exists and the record's timestamp is strictly
older, skip; otherwise install or delete. -/
def replayStep (segId : Nat) (idx : Index) (offset : Nat) (e : LogEntry) : Index :=
  match lookupIdx idx e.key with
  | some md =>
      if e.timestamp < md.timestamp then idx
      else replayApply segId idx offset e
  | none => replayApply segId idx offset e

/-- Replay the records of one segment from the given record offset onward. -/
def replaySegFrom (segId : Nat) (idx : Index) (offset : Nat) :
    List LogEntry → Index
  | [] => idx
  | e :: rest => replaySegFrom segId (replayStep segId idx offset e) (offset + 1) rest

/-- Replay one whole segment in scan order. -/
def replaySeg (segId : Nat) (idx : Index) (seg : List LogEntry) : Index :=
  replaySegFrom segId idx 0 seg

/-- Replay a list of segments, in list order. -/
def replayAll (segsInOrder : Segments) (idx : Index) : Index :=
  segsInOrder.foldl (fun acc p => replaySeg p.1 acc p.2) idx

/-- Arrange the readers in a given id iteration order (the `HashMap` order of
`log_readers.iter_mut()` is arbitrary, so it is a parameter). -/
def orderSegs (readers : Segments) (order : List Nat) : Segments :=
  order.filterMap (fun id => (getSeg readers id).map (fun s => (id, s)))

/-- `BitcaskEngine::open` (`bitcask.rs` lines 60-211).  Arguments: whether the
sled backend's directory exists under the root, whether the root path has an
extension, the logs directory contents (`none` when the directory does not
exist), and the reader iteration order used for replay.  Checks run in source
order: sled-conflict, then extension, then enumeration; with logs present the
writer is opened in append-only mode (failing if the active file is missing)
and the index is rebuilt by replay; with no logs a fresh segment 1 is
created. -/
def openBitcask (sledDirExists rootHasExt : Bool)
    (dirContents : Option (List (String × List LogEntry)))
    (order : List Nat) : Except HobbesError BitcaskStore :=
  if sledDirExists then .error (.CliError sledConflictMsg)
  else if rootHasExt then .error (.CliError extensionMsg)
  else
    match dirContents with
    | some files =>
      match enumerateLogs files with
      | .error e => .error e
      | .ok (readers, latest) =>
        if latest ≠ 0 then
          if files.any (fun p => p.1 == toString latest ++ ".db") then
            .ok { mem_index := replayAll (orderSegs readers order) [],
                  segments := readers,
                  current_log_id := latest,
                  log_writer := true,
                  clock := 0 }
          else .error .IoError
        else
          .ok { mem_index := [],
                segments := setSeg readers 1 [],
                current_log_id := 1,
                log_writer := true,
                clock := 0 }
    | none =>
      .ok { mem_index := [],
            segments := [(1, [])],
            current_log_id := 1,
            log_writer := true,
            clock := 0 }

/-- `SledEngine::open` (`sled_engine.rs` lines 15-27): fails when the bitcask
logs directory exists under the root; the sled internals are an external
crate, so a successful open is opaque. -/
def sledOpen (bitcaskLogsDirExists : Bool) : Except HobbesError Unit :=
  if bitcaskLogsDirExists then .error (.CliError bitcaskConflictMsg)
  else .ok ()

/-- The files of the logs directory as named directory entries, for reopening
a closed store: segment `n` lives in file `n.db`. -/
def diskFiles (st : BitcaskStore) : List (String × List LogEntry) :=
  st.segments.map (fun p => (toString p.1 ++ ".db", p.2))

/-- Jobs are opaque tokens (the code stores boxed closures). -/
abbrev Job := Nat

/-- State of the shared-queue pool's channel: whether any receiver is still
alive (all workers gone means the queue is dropped) and the queued jobs. -/
structure PoolState where
  receiverAlive : Bool
  queue : List Job
deriving DecidableEq

/-- Crossbeam channel send error. -/
inductive SendErr where
  | disconnected
deriving DecidableEq

/-- `channel::Sender::send`: enqueue, or report disconnection. -/
def channelSend (p : PoolState) (j : Job) : PoolState × Except SendErr Unit :=
  if p.receiverAlive then ({ p with queue := p.queue ++ [j] }, .ok ())
  else (p, .error .disconnected)

/-- `SharedQueueThreadPool::spawn` (`thread_pool.rs` lines 61-66): performs
the channel send and discards its result, returning unit. -/
def spawn (p : PoolState) (j : Job) : PoolState × Unit :=
  ((channelSend p j).1, ())

/-- Observable events of an engine operation, used to state ordering facts
about clock reads relative to the mutex. -/
inductive EvKind where
  | clockReadLogTs
  | clockReadIndexTs
  | serialize
  | lockAcquire
  | indexEvict
  | indexInsert
  | appendLog
  | lockRelease
deriving DecidableEq, BEq

/-- Events of `BitcaskEngine::set` in statement order (`bitcask.rs` lines
216-264): the `LogEntry` is built with `Local::now()` and serialized before
`store_mutex.lock()`; a second `Local::now()` feeds the index entry after the
append. -/
def setEvents : List EvKind :=
  [.clockReadLogTs, .serialize, .lockAcquire, .appendLog,
   .clockReadIndexTs, .indexInsert, .lockRelease]

/-- Events of `BitcaskEngine::remove` in statement order (`bitcask.rs` lines
305-334): the lock is taken first, the key evicted, then the tombstone is
built with `Local::now()`, serialized and appended. -/
def removeEvents : List EvKind :=
  [.lockAcquire, .indexEvict, .clockReadLogTs, .serialize,
   .appendLog, .lockRelease]

/-- Position of the first occurrence of an event in a trace. -/
def firstIdx (l : List EvKind) (e : EvKind) : Nat :=
  l.findIdx (fun x => x == e)

/-- A freshly opened store over an empty root. -/
def st0 : BitcaskStore :=
  { mem_index := [], segments := [(1, [])], current_log_id := 1,
    log_writer := true, clock := 0 }

/-- The identity clock stream used by concrete executions. -/
def tsId : Nat → Nat := fun i => i

/-- A size model where a data record encodes to `MAX_FILE_SIZE` bytes and a
tombstone is small; values of about a megabyte are legal, so this is a
realizable encoded-size assignment. -/
def szBig : LogEntry → Nat :=
  fun e => if e.val = TOMBSTONE then 10 else MAX_FILE_SIZE

/-- A size model of small records (no compaction triggers). -/
def szSmall : LogEntry → Nat := fun _ => 1

/-- A pool whose receivers are gone (the job queue has been dropped). -/
def deadPool : PoolState := { receiverAlive := false, queue := [] }

deriving instance DecidableEq for Except

/-- A size model where every record encodes to `MAX_FILE_SIZE` bytes. -/
def szConstBig : LogEntry → Nat := fun _ => MAX_FILE_SIZE

/-- The replay step as the spec describes it (spec section 4.4, the sentences
of claim C3): with no current index entry, install one at the scanned offset
with the record's timestamp unless the record is a tombstone, in which case
install nothing; with a current entry, skip when the record's timestamp is
strictly older, otherwise overwrite, or delete the key on a tombstone (so a
timestamp tie prefers the later-scanned record). -/
def replayStepSpec (segId : Nat) (idx : Index) (offset : Nat) (e : LogEntry) : Index :=
  match lookupIdx idx e.key with
  | none =>
      if e.val = TOMBSTONE then idx
      else insertIdx idx e.key
        { log_pointer := offset, log_id := segId, timestamp := e.timestamp }
  | some md =>
      if e.timestamp < md.timestamp then idx
      else if e.val = TOMBSTONE then eraseKey idx e.key
      else insertIdx idx e.key
        { log_pointer := offset, log_id := segId, timestamp := e.timestamp }

/-- The maximum id among the parsed directory entries (0 when none parse or
the list is empty), matching the `latest_file_id` fold of `open`. -/
def maxParsed (files : List (String × List LogEntry)) : Nat :=
  files.foldl (fun a p => max a ((parseLogId p.1).getD 0)) 0

/-- The store produced by opening a directory holding a single empty segment
file named `2.db`. -/
def stG : BitcaskStore :=
  { mem_index := [], segments := [(2, [])], current_log_id := 2,
    log_writer := true, clock := 0 }

/-- A one-key store whose active segment holds a single live record, used to
exercise a concrete compaction run. -/
def stW : BitcaskStore :=
  { mem_index := [("k", { log_pointer := 0, log_id := 1, timestamp := 5 })],
    segments := [(1, [{ key := "k", val := "v", timestamp := 5 }])],
    current_log_id := 1, log_writer := true, clock := 9 }

/-- The store `stW` after a compaction run under the constant one-megabyte
size model: the live record rewritten into compacted segment 1, the active id
advanced past it, the writer dropped. -/
def stW2 : BitcaskStore :=
  { mem_index := [("k", { log_pointer := 0, log_id := 1, timestamp := 5 })],
    segments := [(1, [{ key := "k", val := "v", timestamp := 5 }])],
    current_log_id := 2, log_writer := false, clock := 9 }

/-- One file extends another: every record keeps its position (appends only). -/
abbrev ListExtends (s1 s2 : List LogEntry) : Prop :=
  ∀ (i : Nat) (e : LogEntry), s1[i]? = some e → s2[i]? = some e

/-- One directory state extends another: every file is still present and has
only been appended to. -/
abbrev SegsExtend (a b : Segments) : Prop :=
  ∀ id s1, getSeg a id = some s1 → ∃ s2, getSeg b id = some s2 ∧ ListExtends s1 s2

/-- The record a metadata entry points at. -/
abbrev EntryAt (segs : Segments) (md : ValueMetadata) (e : LogEntry) : Prop :=
  ∃ seg, getSeg segs md.log_id = some seg ∧ seg[md.log_pointer]? = some e

/-- A metadata entry is a good pointer for key `k`: it references an existing
record of that key that is not a tombstone. -/
abbrev GoodPtr (segs : Segments) (k : String) (md : ValueMetadata) : Prop :=
  ∃ e, EntryAt segs md e ∧ e.key = k ∧ e.val ≠ TOMBSTONE

/-- Well-formedness of the store (the reachable-state invariant I1): each
index entry references an existing non-tombstone record of its key, and a
materialized writer implies the active segment file exists. -/
structure WF (st : BitcaskStore) : Prop where
  index_ok : ∀ k md, lookupIdx st.mem_index k = some md → GoodPtr st.segments k md
  writer_ok : st.log_writer = true → (getSeg st.segments st.current_log_id).isSome

/-- Invariant of the compaction loop accumulator: staged file ids are bounded
by the current compacted id, the current staged file exists, and the fresh
index under construction points only at existing non-tombstone records of the
staged files. -/
structure AccOK (acc : CompactAcc) : Prop where
  ids_le : ∀ id, id ∈ segIds acc.segs → id ≤ acc.cid
  cid_present : (getSeg acc.segs acc.cid).isSome
  idx_ok : ∀ k md, lookupIdx acc.idx k = some md → GoodPtr acc.segs k md

/-! Basic lemmas about the index operations. -/

theorem lookupIdx_erase_self (idx : Index) (k : String) :
    lookupIdx (eraseKey idx k) k = none := by
  induction idx with
  | nil => rfl
  | cons p rest ih =>
    by_cases h : p.1 = k
    · simp [eraseKey, List.filter, h, bne_self_eq_false] at *
      exact ih
    · simp only [eraseKey, List.filter] at *
      rw [show (p.1 != k) = true by simp [bne, h]]
      simp only [lookupIdx, h, if_false]
      exact ih

theorem lookupIdx_erase_ne (idx : Index) (k k2 : String) (h : k2 ≠ k) :
    lookupIdx (eraseKey idx k) k2 = lookupIdx idx k2 := by
  induction idx with
  | nil => rfl
  | cons p rest ih =>
    by_cases hp : p.1 = k
    · simp only [eraseKey, List.filter] at *
      rw [show (p.1 != k) = false by simp [bne, hp]]
      have : ¬ p.1 = k2 := by rw [hp]; exact fun hh => h hh.symm
      simp only [lookupIdx, this, if_false]
      exact ih
    · simp only [eraseKey, List.filter] at *
      rw [show (p.1 != k) = true by simp [bne, hp]]
      simp only [lookupIdx]
      by_cases hq : p.1 = k2
      · simp [hq]
      · simp only [hq, if_false]
        exact ih

theorem eraseKey_of_lookup_none (idx : Index) (k : String)
    (h : lookupIdx idx k = none) : eraseKey idx k = idx := by
  induction idx with
  | nil => rfl
  | cons p rest ih =>
    simp only [lookupIdx] at h
    by_cases hp : p.1 = k
    · simp [hp] at h
    · simp only [hp, if_false] at h
      simp only [eraseKey, List.filter]
      rw [show (p.1 != k) = true by simp [bne, hp]]
      rw [show List.filter (fun p => p.1 != k) rest = eraseKey rest k from rfl, ih h]

theorem lookupIdx_insert_self (idx : Index) (k : String) (md : ValueMetadata) :
    lookupIdx (insertIdx idx k md) k = some md := by
  simp [insertIdx, lookupIdx]

theorem lookupIdx_insert_ne (idx : Index) (k k2 : String) (md : ValueMetadata)
    (h : k2 ≠ k) :
    lookupIdx (insertIdx idx k md) k2 = lookupIdx idx k2 := by
  simp only [insertIdx, lookupIdx]
  rw [if_neg (fun hh => h hh.symm)]
  exact lookupIdx_erase_ne idx k k2 h

theorem lookup_isSome_of_mem_fst (idx : Index) (k : String)
    (h : k ∈ idx.map Prod.fst) : (lookupIdx idx k).isSome := by
  induction idx with
  | nil => simp at h
  | cons p rest ih =>
    simp only [List.map, List.mem_cons] at h
    simp only [lookupIdx]
    by_cases hp : p.1 = k
    · simp [hp]
    · rcases h with h | h
      · exact absurd h.symm hp
      · simp only [hp, if_false]
        exact ih h

theorem mem_fst_of_lookup_some (idx : Index) (k : String) (md : ValueMetadata)
    (h : lookupIdx idx k = some md) : k ∈ idx.map Prod.fst := by
  induction idx with
  | nil => simp [lookupIdx] at h
  | cons p rest ih =>
    simp only [lookupIdx] at h
    by_cases hp : p.1 = k
    · simp [hp]
    · simp only [hp, if_false] at h
      simp only [List.map, List.mem_cons]
      exact Or.inr (ih h)

/-! Lemmas about segment files. -/

theorem appendSeg_cons_pos (p : Nat × List LogEntry) (rest : Segments)
    (id : Nat) (e : LogEntry) (hp : p.1 = id) :
    appendSeg (p :: rest) id e = (p.1, p.2 ++ [e]) :: appendSeg rest id e := by
  simp [appendSeg, hp]

theorem appendSeg_cons_neg (p : Nat × List LogEntry) (rest : Segments)
    (id : Nat) (e : LogEntry) (hp : ¬ p.1 = id) :
    appendSeg (p :: rest) id e = p :: appendSeg rest id e := by
  simp [appendSeg, hp]

theorem getSeg_appendSeg_self (segs : Segments) (id : Nat) (e : LogEntry) :
    getSeg (appendSeg segs id e) id = (getSeg segs id).map (fun s => s ++ [e]) := by
  induction segs with
  | nil => rfl
  | cons p rest ih =>
    by_cases hp : p.1 = id
    · rw [appendSeg_cons_pos p rest id e hp]
      simp [getSeg, hp]
    · rw [appendSeg_cons_neg p rest id e hp]
      simp [getSeg, hp, ih]

theorem getSeg_appendSeg_ne (segs : Segments) (id id2 : Nat) (e : LogEntry)
    (h : id2 ≠ id) :
    getSeg (appendSeg segs id e) id2 = getSeg segs id2 := by
  induction segs with
  | nil => rfl
  | cons p rest ih =>
    by_cases hp : p.1 = id
    · have hne : ¬ p.1 = id2 := by rw [hp]; exact fun hh => h hh.symm
      rw [appendSeg_cons_pos p rest id e hp]
      simp [getSeg, hne, ih]
    · rw [appendSeg_cons_neg p rest id e hp]
      by_cases hq : p.1 = id2
      · simp [getSeg, hq]
      · simp [getSeg, hq, ih]

theorem getSeg_concat_of_none (segs : Segments) (p : Nat × List LogEntry)
    (id : Nat) (h : getSeg segs id = none) :
    getSeg (segs ++ [p]) id = if p.1 = id then some p.2 else none := by
  induction segs with
  | nil => rfl
  | cons q rest ih =>
    simp only [getSeg] at h
    by_cases hq : q.1 = id
    · simp [hq] at h
    · simp only [List.cons_append, getSeg, hq, if_false]
      exact ih (by simpa [hq] using h)

theorem getSeg_concat_of_some (segs : Segments) (p : Nat × List LogEntry)
    (id : Nat) (s : List LogEntry) (h : getSeg segs id = some s) :
    getSeg (segs ++ [p]) id = some s := by
  induction segs with
  | nil => simp [getSeg] at h
  | cons q rest ih =>
    simp only [getSeg] at h
    by_cases hq : q.1 = id
    · simp only [List.cons_append, getSeg, hq, if_true]
      simpa [hq] using h
    · simp only [List.cons_append, getSeg, hq, if_false]
      exact ih (by simpa [hq] using h)

theorem getSeg_createSeg_self (segs : Segments) (id : Nat) :
    getSeg (createSeg segs id) id = some ((getSeg segs id).getD []) := by
  unfold createSeg
  cases h : getSeg segs id with
  | some s => simp [h]
  | none =>
    simp only [h, Option.isSome_none, Bool.false_eq_true, if_false]
    rw [getSeg_concat_of_none segs (id, []) id h]
    simp

theorem getSeg_createSeg_ne (segs : Segments) (id id2 : Nat) (h : id2 ≠ id) :
    getSeg (createSeg segs id) id2 = getSeg segs id2 := by
  unfold createSeg
  by_cases hs : (getSeg segs id).isSome
  · simp [hs]
  · simp only [hs, Bool.false_eq_true, if_false]
    cases h2 : getSeg segs id2 with
    | some s => exact getSeg_concat_of_some segs (id, []) id2 s h2
    | none =>
      rw [getSeg_concat_of_none segs (id, []) id2 h2]
      exact if_neg (fun hh => h hh.symm)

theorem listExtends_append (s t : List LogEntry) : ListExtends s (s ++ t) := by
  intro i e h
  have hi : i < s.length := by
    by_contra hge
    rw [List.getElem?_eq_none (Nat.le_of_not_lt hge)] at h
    exact Option.noConfusion h
  rw [List.getElem?_append_left hi]
  exact h

theorem listExtends_refl (s : List LogEntry) : ListExtends s s := fun _ _ h => h

theorem segsExtend_refl (segs : Segments) : SegsExtend segs segs :=
  fun _ s1 h => ⟨s1, h, listExtends_refl s1⟩

theorem segsExtend_trans {a b c : Segments}
    (h1 : SegsExtend a b) (h2 : SegsExtend b c) : SegsExtend a c := by
  intro id s1 hs1
  obtain ⟨s2, hs2, he12⟩ := h1 id s1 hs1
  obtain ⟨s3, hs3, he23⟩ := h2 id s2 hs2
  exact ⟨s3, hs3, fun i e he => he23 i e (he12 i e he)⟩

theorem segsExtend_appendSeg (segs : Segments) (id : Nat) (e : LogEntry) :
    SegsExtend segs (appendSeg segs id e) := by
  intro id2 s1 hs1
  by_cases h : id2 = id
  · subst h
    rw [getSeg_appendSeg_self, hs1]
    exact ⟨s1 ++ [e], rfl, listExtends_append s1 [e]⟩
  · rw [getSeg_appendSeg_ne segs id id2 e h]
    exact ⟨s1, hs1, listExtends_refl s1⟩

theorem segsExtend_createSeg (segs : Segments) (id : Nat) :
    SegsExtend segs (createSeg segs id) := by
  intro id2 s1 hs1
  by_cases h : id2 = id
  · subst h
    rw [getSeg_createSeg_self, hs1]
    exact ⟨s1, rfl, listExtends_refl s1⟩
  · rw [getSeg_createSeg_ne segs id id2 h]
    exact ⟨s1, hs1, listExtends_refl s1⟩

theorem goodPtr_mono {a b : Segments} {k : String} {md : ValueMetadata}
    (hab : SegsExtend a b) (h : GoodPtr a k md) : GoodPtr b k md := by
  obtain ⟨e, ⟨seg, hseg, hget⟩, hk, hv⟩ := h
  obtain ⟨seg2, hseg2, hext⟩ := hab md.log_id seg hseg
  exact ⟨e, ⟨seg2, hseg2, hext md.log_pointer e hget⟩, hk, hv⟩

/-! Replay step characterization. -/

theorem replayStep_eq_spec (segId : Nat) (idx : Index) (offset : Nat) (e : LogEntry) :
    replayStep segId idx offset e = replayStepSpec segId idx offset e := by
  unfold replayStep replayStepSpec replayApply
  cases h : lookupIdx idx e.key with
  | some md => rfl
  | none =>
    by_cases ht : e.val = TOMBSTONE
    · simp [ht, eraseKey_of_lookup_none idx e.key h]
    · simp [ht]

theorem replaySegFrom_eq_foldl (segId : Nat) (seg : List LogEntry) :
    ∀ (idx : Index) (off : Nat),
      replaySegFrom segId idx off seg =
        (seg.enumFrom off).foldl (fun acc p => replayStepSpec segId acc p.1 p.2) idx := by
  induction seg with
  | nil => intro idx off; rfl
  | cons e rest ih =>
    intro idx off
    rw [show List.enumFrom off (e :: rest) = (off, e) :: List.enumFrom (off + 1) rest from rfl]
    rw [List.foldl_cons]
    show replaySegFrom segId (replayStep segId idx off e) (off + 1) rest = _
    rw [replayStep_eq_spec]
    exact ih _ _

/-- Claim C3 (confirmed).  During replay, each decoded record is processed in
scan order at its scanned offset, and the per-record update is exactly the
policy the spec states: with no current index entry, install a pointer to the
scanned offset of this segment with the record's timestamp unless the record
is a tombstone (then install nothing); with a current entry, skip when the
record's timestamp is strictly older, otherwise overwrite, or delete the key
on a tombstone — so timestamp ties prefer the later-scanned record. -/
theorem C3_replay_step_spec :
    (∀ (segId : Nat) (idx : Index) (offset : Nat) (e : LogEntry),
      replayStep segId idx offset e = replayStepSpec segId idx offset e) ∧
    (∀ (segId : Nat) (idx : Index) (seg : List LogEntry),
      replaySeg segId idx seg =
        seg.enum.foldl (fun acc p => replayStepSpec segId acc p.1 p.2) idx) := by
  refine ⟨replayStep_eq_spec, fun segId idx seg => ?_⟩
  rw [replaySeg, replaySegFrom_eq_foldl]
  rfl

/-- Claim C1 (corrected), counterexample.  The claim quantifies over every
value `v`, but the value `!tomb!` is reserved: after a successful
`set("a", "!tomb!")` on a fresh store, `get("a")` returns `None`, not
`Some("!tomb!")`, because the read path treats the stored record as a
tombstone. -/
theorem C1_tombstone_value_counterexample :
    (setOp tsId szSmall "a" "!tomb!" st0).2 = .ok () ∧
    getOp (setOp tsId szSmall "a" "!tomb!" st0).1 "a" = .ok none := by decide

/-- Claim C2 (code bug).  A concrete single-threaded run of successful
operations whose reopened store answers `get` differently from the pre-close
store: on a fresh root, `set("k1","v1")` with a record of `MAX_FILE_SIZE`
bytes triggers compaction (leaving the live record in segment 1 and making
segment 2 active), then `remove("k1")` appends a tombstone to segment 2 and
succeeds, so `get("k1")` is `None`.  Reopening the same files with the reader
map iterated in the order segment 2 then segment 1 — both orders occur, since
`log_readers` is a `HashMap` — drops the tombstone (no index entry exists when
it is scanned) and then installs the older compacted record, so the reopened
store answers `Some("v1")`.  The final conjunct records that the two segment
ids on disk are exactly 1 and 2, so `[2, 1]` is a genuine iteration order. -/
theorem C2_reopen_resurrection :
    (setOp tsId szBig "k1" "v1" st0).2 = .ok () ∧
    (removeOp tsId szBig true "k1" (setOp tsId szBig "k1" "v1" st0).1).2 = .ok () ∧
    getOp (removeOp tsId szBig true "k1" (setOp tsId szBig "k1" "v1" st0).1).1 "k1" =
      .ok none ∧
    segIds (removeOp tsId szBig true "k1" (setOp tsId szBig "k1" "v1" st0).1).1.segments =
      [1, 2] ∧
    (openBitcask false false
        (some (diskFiles (removeOp tsId szBig true "k1" (setOp tsId szBig "k1" "v1" st0).1).1))
        [2, 1]).map (fun st => getOp st "k1") = .ok (.ok (some "v1")) := by decide

/-- Claim C5 (confirmed).  With the sled backend's directory present under the
root, `BitcaskEngine::open` fails no matter what else is on disk, and with the
bitcask logs directory present `SledEngine::open` fails; both errors are the
spec's `BackendConflict` kind (the error-kind classification is modelled from
the spec because the `HobbesError` declaration is outside the provided
sources). -/
theorem C5_backend_exclusivity (ext : Bool)
    (dirC : Option (List (String × List LogEntry))) (order : List Nat) :
    openBitcask true ext dirC order = .error (.CliError sledConflictMsg) ∧
    errorKind (.CliError sledConflictMsg) = .BackendConflict ∧
    sledOpen true = .error (.CliError bitcaskConflictMsg) ∧
    errorKind (.CliError bitcaskConflictMsg) = .BackendConflict :=
  ⟨by simp [openBitcask], by decide, by simp [sledOpen], by decide⟩

/-- Claim C6 (corrected), counterexample.  On a pool whose job queue has been
dropped, the channel send fails, yet `spawn` returns plain `()` with the pool
state unchanged: the job is discarded and no error of any form reaches the
caller, refuting the claim that the failure is surfaced rather than
discarded (the `ThreadPool::spawn` signature returns unit and the code drops
the `send` result). -/
theorem C6_silent_drop_counterexample :
    spawn deadPool 0 = (deadPool, ()) ∧
    (channelSend deadPool 0).2 = .error .disconnected := by decide

/-- Claim C6 (corrected), amended: `spawn` enqueues the job when the queue is
alive, and silently discards both the job and the channel-send failure when
the queue has been dropped; no error is surfaced to the caller. -/
theorem C6_spawn_amended (p : PoolState) (j : Job) :
    (p.receiverAlive = true →
      spawn p j = ({ p with queue := p.queue ++ [j] }, ())) ∧
    (p.receiverAlive = false →
      spawn p j = (p, ()) ∧ (channelSend p j).2 = .error .disconnected) := by
  constructor <;> intro h <;> simp [spawn, channelSend, h]

/-- Witness for the amended claim C6 at concrete pools: a live pool enqueues,
a dropped pool silently discards. -/
theorem C6_spawn_amended_witness :
    spawn { receiverAlive := true, queue := [] } 5 =
      ({ receiverAlive := true, queue := [5] }, ()) ∧
    spawn deadPool 7 = (deadPool, ()) := by
  refine ⟨(C6_spawn_amended { receiverAlive := true, queue := [] } 5).1 rfl, ?_⟩
  exact ((C6_spawn_amended deadPool 7).2 rfl).1

/-- Claim C7 (corrected), counterexample.  A logs directory containing a file
whose stem does not parse as an integer makes `open` fail with the propagated
parse error instead of ignoring the file, refuting "ignores (does not fail
on) any file whose name does not match". -/
theorem C7_nonmatching_file_counterexample :
    openBitcask false false (some [("notes.txt", [])]) [] = .error .ParseIntError := by decide

/-- Claim C8 (code bug).  In `set`, the clock read that produces the appended
record's timestamp happens strictly before the mutex acquisition (the
`LogEntry` is built and serialized before `store_mutex.lock()`), while in
`remove` the lock is taken first; so the claim that both operations read the
clock after acquiring the mutex fails for `set`. -/
theorem C8_set_timestamp_before_lock :
    firstIdx setEvents .clockReadLogTs < firstIdx setEvents .lockAcquire ∧
    firstIdx removeEvents .lockAcquire < firstIdx removeEvents .clockReadLogTs := by decide

/-- Claim C10 (confirmed).  `remove` evicts the key from the in-memory index
before appending the tombstone, so when the append fails the caller gets the
error while the key is already gone: the index lookup is `none`, a subsequent
`get` answers `None`, and no tombstone record was written to any segment. -/
theorem C10_remove_not_atomic (ts : Nat → Nat) (sz : LogEntry → Nat)
    (k : String) (st : BitcaskStore) (md : ValueMetadata)
    (hmem : lookupIdx st.mem_index k = some md) (hw : st.log_writer = true) :
    (removeOp ts sz false k st).2 = .error .IoError ∧
    lookupIdx (removeOp ts sz false k st).1.mem_index k = none ∧
    (removeOp ts sz false k st).1.segments = st.segments ∧
    getOp (removeOp ts sz false k st).1 k = .ok none := by
  have h1 : removeOp ts sz false k st =
      ({ st with mem_index := eraseKey st.mem_index k, clock := st.clock + 1 },
        .error .IoError) := by
    unfold removeOp
    rw [hmem]
    simp [log_writer_init, hw]
  rw [h1]
  refine ⟨rfl, lookupIdx_erase_self st.mem_index k, rfl, ?_⟩
  simp [getOp, get_val_metadata, lookupIdx_erase_self]

/-- Witness for claim C10 at a concrete store holding the key. -/
theorem C10_remove_not_atomic_witness :
    (removeOp tsId szSmall false "a" (setOp tsId szSmall "a" "b" st0).1).2 =
      .error .IoError ∧
    lookupIdx (removeOp tsId szSmall false "a"
      (setOp tsId szSmall "a" "b" st0).1).1.mem_index "a" = none ∧
    (removeOp tsId szSmall false "a" (setOp tsId szSmall "a" "b" st0).1).1.segments =
      (setOp tsId szSmall "a" "b" st0).1.segments ∧
    getOp (removeOp tsId szSmall false "a" (setOp tsId szSmall "a" "b" st0).1).1 "a" =
      .ok none :=
  C10_remove_not_atomic tsId szSmall "a" (setOp tsId szSmall "a" "b" st0).1
    { log_pointer := 0, log_id := 1, timestamp := 1 } (by decide) (by decide)

/-! Supporting lemmas for the read path, writer initialization and ids. -/

theorem lookupIdx_none_iff (idx : Index) (k : String) :
    lookupIdx idx k = none ↔ k ∉ idx.map Prod.fst := by
  constructor
  · intro h hmem
    have := lookup_isSome_of_mem_fst idx k hmem
    rw [h] at this
    exact Bool.noConfusion this
  · intro h
    cases hl : lookupIdx idx k with
    | none => rfl
    | some md => exact absurd (mem_fst_of_lookup_some idx k md hl) h

theorem entryAt_mono {a b : Segments} {md : ValueMetadata} {e : LogEntry}
    (hab : SegsExtend a b) (h : EntryAt a md e) : EntryAt b md e := by
  obtain ⟨seg, hseg, hget⟩ := h
  obtain ⟨seg2, hseg2, hext⟩ := hab md.log_id seg hseg
  exact ⟨seg2, hseg2, hext md.log_pointer e hget⟩

theorem get_val_metadata_of_none {st : BitcaskStore} {k : String}
    (h : lookupIdx st.mem_index k = none) : get_val_metadata st k = .ok none := by
  unfold get_val_metadata
  rw [h]

theorem getOp_of_none {st : BitcaskStore} {k : String}
    (h : lookupIdx st.mem_index k = none) : getOp st k = .ok none := by
  unfold getOp
  rw [get_val_metadata_of_none h]

theorem get_val_metadata_of_entry {st : BitcaskStore} {k : String}
    {md : ValueMetadata} {e : LogEntry} (hmem : lookupIdx st.mem_index k = some md)
    (hE : EntryAt st.segments md e) (hv : e.val ≠ TOMBSTONE) :
    get_val_metadata st k = .ok (some (e.val, md)) := by
  obtain ⟨seg, hseg, hget⟩ := hE
  unfold get_val_metadata
  rw [hmem]
  dsimp only
  rw [hseg]
  dsimp only
  rw [hget]
  dsimp only
  rw [if_neg hv]

theorem getOp_of_entry {st : BitcaskStore} {k : String}
    {md : ValueMetadata} {e : LogEntry} (hmem : lookupIdx st.mem_index k = some md)
    (hE : EntryAt st.segments md e) (hv : e.val ≠ TOMBSTONE) :
    getOp st k = .ok (some e.val) := by
  unfold getOp
  rw [get_val_metadata_of_entry hmem hE hv]

theorem get_val_metadata_of_WF {st : BitcaskStore} (hWF : WF st)
    {k : String} {md : ValueMetadata} (hmem : lookupIdx st.mem_index k = some md) :
    ∃ e : LogEntry, EntryAt st.segments md e ∧ e.key = k ∧ e.val ≠ TOMBSTONE ∧
      get_val_metadata st k = .ok (some (e.val, md)) := by
  obtain ⟨e, hE, hk, hv⟩ := hWF.index_ok k md hmem
  exact ⟨e, hE, hk, hv, get_val_metadata_of_entry hmem hE hv⟩

theorem log_writer_init_of_true {st : BitcaskStore} (h : st.log_writer = true) :
    log_writer_init st = st := by
  unfold log_writer_init
  rw [h]
  simp

theorem log_writer_init_mem_index (st : BitcaskStore) :
    (log_writer_init st).mem_index = st.mem_index := by
  unfold log_writer_init
  by_cases h : st.log_writer <;> simp [h]

theorem log_writer_init_current (st : BitcaskStore) :
    (log_writer_init st).current_log_id = st.current_log_id := by
  unfold log_writer_init
  by_cases h : st.log_writer <;> simp [h]

theorem log_writer_init_clock (st : BitcaskStore) :
    (log_writer_init st).clock = st.clock := by
  unfold log_writer_init
  by_cases h : st.log_writer <;> simp [h]

theorem log_writer_init_writer (st : BitcaskStore) :
    (log_writer_init st).log_writer = true := by
  unfold log_writer_init
  by_cases h : st.log_writer <;> simp [h]

theorem log_writer_init_extends (st : BitcaskStore) :
    SegsExtend st.segments (log_writer_init st).segments := by
  unfold log_writer_init
  by_cases h : st.log_writer
  · simp only [h, if_true]
    exact segsExtend_refl st.segments
  · simp only [h, Bool.false_eq_true, if_false]
    exact segsExtend_createSeg st.segments st.current_log_id

theorem log_writer_init_active_isSome {st : BitcaskStore} (hWF : WF st) :
    (getSeg (log_writer_init st).segments
      (log_writer_init st).current_log_id).isSome := by
  unfold log_writer_init
  by_cases h : st.log_writer
  · simp only [h, if_true]
    exact hWF.writer_ok h
  · simp only [h, Bool.false_eq_true, if_false]
    rw [getSeg_createSeg_self]
    rfl

theorem WF_log_writer_init {st : BitcaskStore} (hWF : WF st) :
    WF (log_writer_init st) := by
  constructor
  · intro k md hmem
    rw [log_writer_init_mem_index] at hmem
    exact goodPtr_mono (log_writer_init_extends st) (hWF.index_ok k md hmem)
  · intro _
    exact log_writer_init_active_isSome hWF

theorem segIds_appendSeg (segs : Segments) (id : Nat) (e : LogEntry) :
    segIds (appendSeg segs id e) = segIds segs := by
  induction segs with
  | nil => rfl
  | cons p rest ih =>
    by_cases hp : p.1 = id
    · rw [appendSeg_cons_pos p rest id e hp]
      simp only [segIds, List.map] at *
      rw [ih]
    · rw [appendSeg_cons_neg p rest id e hp]
      simp only [segIds, List.map] at *
      rw [ih]

theorem segIds_createSeg_mem (segs : Segments) (id id2 : Nat)
    (h : id2 ∈ segIds (createSeg segs id)) : id2 ∈ segIds segs ∨ id2 = id := by
  unfold createSeg at h
  by_cases hs : (getSeg segs id).isSome
  · rw [if_pos hs] at h
    exact Or.inl h
  · rw [if_neg hs] at h
    simp only [segIds, List.map_append, List.mem_append] at h
    rcases h with h | h
    · exact Or.inl h
    · simp at h
      exact Or.inr h

theorem segIds_setSeg_mem (segs : Segments) (id id2 : Nat)
    (content : List LogEntry) (h : id2 ∈ segIds (setSeg segs id content)) :
    id2 ∈ segIds segs ∨ id2 = id := by
  unfold setSeg at h
  by_cases hs : (getSeg segs id).isSome
  · rw [if_pos hs] at h
    simp only [segIds, List.map_map, List.mem_map] at h
    obtain ⟨p, hp, hval⟩ := h
    have hfst : (if p.1 = id then (p.1, content) else p).1 = p.1 := by
      by_cases hpid : p.1 = id <;> simp [hpid]
    have hp1 : p.1 = id2 := by simpa [Function.comp, hfst] using hval
    exact Or.inl (hp1 ▸ List.mem_map_of_mem Prod.fst hp)
  · rw [if_neg hs] at h
    simp only [segIds, List.map_append, List.mem_append] at h
    rcases h with h | h
    · exact Or.inl h
    · simp at h
      exact Or.inr h

theorem mem_segIds_setSeg_self (segs : Segments) (id : Nat)
    (content : List LogEntry) : id ∈ segIds (setSeg segs id content) := by
  unfold setSeg
  by_cases hs : (getSeg segs id).isSome
  · rw [if_pos hs]
    obtain ⟨s, hsome⟩ := Option.isSome_iff_exists.mp hs
    have hmem : (id, s) ∈ segs := by
      clear hs
      induction segs with
      | nil => simp [getSeg] at hsome
      | cons p rest ih =>
        simp only [getSeg] at hsome
        by_cases hp : p.1 = id
        · rw [if_pos hp] at hsome
          have hp2 : p.2 = s := Option.some.inj hsome
          have hpe : p = (id, s) := by
            cases p
            simp only at hp hp2
            rw [hp, hp2]
          rw [← hpe]
          exact List.mem_cons_self p rest
        · rw [if_neg hp] at hsome
          exact List.mem_cons_of_mem p (ih hsome)
    simp only [segIds, List.map_map]
    refine List.mem_map.mpr ⟨(id, s), hmem, ?_⟩
    simp [Function.comp]
  · rw [if_neg hs]
    simp [segIds]

theorem mem_segIds_preserved_setSeg (segs : Segments) (id id2 : Nat)
    (content : List LogEntry) (h : id2 ∈ segIds segs) :
    id2 ∈ segIds (setSeg segs id content) := by
  unfold setSeg
  by_cases hs : (getSeg segs id).isSome
  · rw [if_pos hs]
    simp only [segIds, List.mem_map] at h
    obtain ⟨p, hp, hval⟩ := h
    simp only [segIds, List.map_map]
    refine List.mem_map.mpr ⟨p, hp, ?_⟩
    have hfst : (if p.1 = id then (p.1, content) else p).1 = p.1 := by
      by_cases hpid : p.1 = id <;> simp [hpid]
    simpa [Function.comp, hfst] using hval
  · rw [if_neg hs]
    simp only [segIds, List.map_append, List.mem_append]
    exact Or.inl h

/-! Compaction-loop correctness. -/

theorem rollAcc_spec (sz : LogEntry → Nat) (acc : CompactAcc) (hAcc : AccOK acc) :
    AccOK (rollAcc sz acc) ∧ acc.cid ≤ (rollAcc sz acc).cid ∧
    SegsExtend acc.segs (rollAcc sz acc).segs ∧ (rollAcc sz acc).idx = acc.idx := by
  unfold rollAcc
  by_cases h : compactFileLen sz acc ≥ MAX_FILE_SIZE
  · rw [if_pos h]
    refine ⟨⟨?_, ?_, ?_⟩, Nat.le_succ acc.cid,
      segsExtend_createSeg acc.segs (acc.cid + 1), rfl⟩
    · intro id hid
      rcases segIds_createSeg_mem acc.segs (acc.cid + 1) id hid with hmem | heq
      · exact Nat.le_succ_of_le (hAcc.ids_le id hmem)
      · exact Nat.le_of_eq heq
    · rw [getSeg_createSeg_self]
      rfl
    · intro k md hmem
      exact goodPtr_mono (segsExtend_createSeg acc.segs (acc.cid + 1))
        (hAcc.idx_ok k md hmem)
  · rw [if_neg h]
    exact ⟨hAcc, Nat.le_refl acc.cid, segsExtend_refl acc.segs, rfl⟩

theorem compactKey_spec (sz : LogEntry → Nat) {st : BitcaskStore} (hWF : WF st)
    (acc : CompactAcc) (hAcc : AccOK acc) (k : String) (md : ValueMetadata)
    (hmem : lookupIdx st.mem_index k = some md) :
    ∃ acc2 v,
      compactKey sz st acc k = .ok acc2 ∧
      AccOK acc2 ∧
      acc.cid ≤ acc2.cid ∧
      SegsExtend acc.segs acc2.segs ∧
      get_val_metadata st k = .ok (some (v, md)) ∧ v ≠ TOMBSTONE ∧
      (∀ k2, k2 ≠ k → lookupIdx acc2.idx k2 = lookupIdx acc.idx k2) ∧
      (∃ md2, lookupIdx acc2.idx k = some md2 ∧ md2.timestamp = md.timestamp ∧
        EntryAt acc2.segs md2 { key := k, val := v, timestamp := md.timestamp }) := by
  obtain ⟨e, hE, hk, hv, hget⟩ := get_val_metadata_of_WF hWF hmem
  obtain ⟨hAcc1, hcid1, hext1, hidx1⟩ := rollAcc_spec sz acc hAcc
  obtain ⟨s, hs⟩ := Option.isSome_iff_exists.mp hAcc1.cid_present
  set acc1 := rollAcc sz acc with hacc1
  set entry : LogEntry := { key := k, val := e.val, timestamp := md.timestamp }
    with hentry
  set mdNew : ValueMetadata :=
    { log_pointer := ((getSeg acc1.segs acc1.cid).getD []).length,
      log_id := acc1.cid, timestamp := md.timestamp } with hmdNew
  set acc2 : CompactAcc :=
    { segs := appendSeg acc1.segs acc1.cid entry, cid := acc1.cid,
      idx := insertIdx acc.idx k mdNew } with hacc2
  have hkey : compactKey sz st acc k = .ok acc2 := by
    unfold compactKey
    rw [hget]
  have hptr : mdNew.log_pointer = s.length := by
    rw [hmdNew]
    simp [hs]
  have hsegNew : getSeg acc2.segs acc1.cid = some (s ++ [entry]) := by
    rw [hacc2]
    simp only
    rw [getSeg_appendSeg_self, hs]
    rfl
  have hEntryNew : EntryAt acc2.segs mdNew entry := by
    refine ⟨s ++ [entry], ?_, ?_⟩
    · rw [show mdNew.log_id = acc1.cid from rfl]
      exact hsegNew
    · rw [hptr]
      exact List.getElem?_concat_length s entry
  have hext2 : SegsExtend acc1.segs acc2.segs := by
    rw [hacc2]
    exact segsExtend_appendSeg acc1.segs acc1.cid entry
  have hextAll : SegsExtend acc.segs acc2.segs := segsExtend_trans hext1 hext2
  refine ⟨acc2, e.val, hkey, ⟨?_, ?_, ?_⟩, hcid1, hextAll, hget, hv, ?_, ?_⟩
  · intro id hid
    rw [hacc2] at hid
    simp only at hid
    rw [segIds_appendSeg] at hid
    exact hAcc1.ids_le id hid
  · rw [show acc2.cid = acc1.cid from rfl]
    rw [hsegNew]
    rfl
  · intro k2 md2 hmem2
    rw [show acc2.idx = insertIdx acc.idx k mdNew from rfl] at hmem2
    by_cases hkk : k2 = k
    · subst hkk
      rw [lookupIdx_insert_self] at hmem2
      obtain rfl := Option.some.inj hmem2
      exact ⟨entry, hEntryNew, rfl, hv⟩
    · rw [lookupIdx_insert_ne acc.idx k k2 mdNew hkk] at hmem2
      exact goodPtr_mono hextAll (hAcc.idx_ok k2 md2 hmem2)
  · intro k2 hkk
    rw [show acc2.idx = insertIdx acc.idx k mdNew from rfl]
    exact lookupIdx_insert_ne acc.idx k k2 mdNew hkk
  · refine ⟨mdNew, ?_, rfl, hEntryNew⟩
    rw [show acc2.idx = insertIdx acc.idx k mdNew from rfl]
    exact lookupIdx_insert_self acc.idx k mdNew

theorem compactLoop_spec (sz : LogEntry → Nat) {st : BitcaskStore} (hWF : WF st) :
    ∀ (keys : List String) (acc : CompactAcc), AccOK acc →
      (∀ k, k ∈ keys → (lookupIdx st.mem_index k).isSome) →
      ∃ acc2, compactLoop sz st keys acc = .ok acc2 ∧ AccOK acc2 ∧
        acc.cid ≤ acc2.cid ∧ SegsExtend acc.segs acc2.segs ∧
        (∀ k, k ∉ keys → lookupIdx acc2.idx k = lookupIdx acc.idx k) ∧
        (∀ k, k ∈ keys → ∃ md v md2,
          lookupIdx st.mem_index k = some md ∧
          get_val_metadata st k = .ok (some (v, md)) ∧ v ≠ TOMBSTONE ∧
          lookupIdx acc2.idx k = some md2 ∧ md2.timestamp = md.timestamp ∧
          EntryAt acc2.segs md2 { key := k, val := v, timestamp := md.timestamp }) := by
  intro keys
  induction keys with
  | nil =>
    intro acc hAcc _
    refine ⟨acc, rfl, hAcc, Nat.le_refl _, segsExtend_refl _, fun _ _ => rfl, ?_⟩
    intro k hk
    simp at hk
  | cons kh rest ih =>
    intro acc hAcc hkeys
    obtain ⟨md, hmd⟩ := Option.isSome_iff_exists.mp
      (hkeys kh (List.mem_cons_self kh rest))
    obtain ⟨acc1, v, hkey, hAcc1, hcid1, hext1, hget1, hv1, huntouched1, md2, hlk1,
      hts1, hEnt1⟩ := compactKey_spec sz hWF acc hAcc kh md hmd
    obtain ⟨acc2, hloop, hAcc2, hcid2, hext2, huntouched2, hproc2⟩ :=
      ih acc1 hAcc1 (fun k hk => hkeys k (List.mem_cons_of_mem kh hk))
    have hloopAll : compactLoop sz st (kh :: rest) acc = .ok acc2 := by
      unfold compactLoop
      rw [hkey]
      exact hloop
    refine ⟨acc2, hloopAll, hAcc2, Nat.le_trans hcid1 hcid2,
      segsExtend_trans hext1 hext2, ?_, ?_⟩
    · intro k hk
      have hne : k ≠ kh := fun h => hk (h ▸ List.mem_cons_self kh rest)
      have hnr : k ∉ rest := fun h => hk (List.mem_cons_of_mem kh h)
      rw [huntouched2 k hnr, huntouched1 k hne]
    · intro k hk
      by_cases hr : k ∈ rest
      · exact hproc2 k hr
      · have hkh : k = kh := by
          rcases List.mem_cons.mp hk with h | h
          · exact h
          · exact absurd h hr
        subst hkh
        refine ⟨md, v, md2, hmd, hget1, hv1, ?_, hts1, entryAt_mono hext2 hEnt1⟩
        rw [huntouched2 k hr]
        exact hlk1

theorem get_val_metadata_some_elim {st : BitcaskStore} {k v : String}
    {md : ValueMetadata} (h : get_val_metadata st k = .ok (some (v, md))) :
    lookupIdx st.mem_index k = some md ∧
    ∃ e, EntryAt st.segments md e ∧ e.val = v ∧ v ≠ TOMBSTONE := by
  unfold get_val_metadata at h
  cases hl : lookupIdx st.mem_index k with
  | none =>
    rw [hl] at h
    simp at h
  | some md' =>
    rw [hl] at h
    dsimp only at h
    cases hs : getSeg st.segments md'.log_id with
    | none =>
      rw [hs] at h
      simp at h
    | some seg =>
      rw [hs] at h
      dsimp only at h
      cases hg : seg[md'.log_pointer]? with
      | none =>
        rw [hg] at h
        simp at h
      | some e =>
        rw [hg] at h
        dsimp only at h
        by_cases hv : e.val = TOMBSTONE
        · rw [if_pos hv] at h
          simp at h
        · rw [if_neg hv] at h
          simp only [Except.ok.injEq, Option.some.injEq, Prod.mk.injEq] at h
          obtain ⟨hev, hmd⟩ := h
          subst hmd
          subst hev
          exact ⟨rfl, e, ⟨seg, hs, hg⟩, rfl, hv⟩

theorem getOp_some_elim {st : BitcaskStore} {k v : String}
    (h : getOp st k = .ok (some v)) :
    ∃ md, lookupIdx st.mem_index k = some md ∧
      get_val_metadata st k = .ok (some (v, md)) := by
  unfold getOp at h
  obtain ⟨p, hp⟩ : ∃ p, get_val_metadata st k = .ok (some p) := by
    revert h
    cases get_val_metadata st k with
    | error e =>
      intro h
      simp at h
    | ok o =>
      cases o with
      | none =>
        intro h
        simp at h
      | some p =>
        intro _
        exact ⟨p, rfl⟩
  obtain ⟨v2, md⟩ := p
  have hv2 : v2 = v := by
    rw [hp] at h
    simpa using h
  subst hv2
  exact ⟨md, (get_val_metadata_some_elim hp).1, hp⟩

theorem getOp_some_mono {st st2 : BitcaskStore}
    (hmem : st2.mem_index = st.mem_index)
    (hext : SegsExtend st.segments st2.segments)
    {k v : String} (h : getOp st k = .ok (some v)) :
    getOp st2 k = .ok (some v) := by
  obtain ⟨md, hl, hg⟩ := getOp_some_elim h
  obtain ⟨-, e, hE, hev, hv⟩ := get_val_metadata_some_elim hg
  have hl2 : lookupIdx st2.mem_index k = some md := by rw [hmem]; exact hl
  have := getOp_of_entry hl2 (entryAt_mono hext hE) (hev ▸ hv)
  rw [hev] at this
  exact this

theorem lookup_isSome_of_getOp_some {st : BitcaskStore} {k v : String}
    (h : getOp st k = .ok (some v)) : (lookupIdx st.mem_index k).isSome := by
  obtain ⟨md, hl, -⟩ := getOp_some_elim h
  rw [hl]
  rfl

theorem compaction_manager_spec (sz : LogEntry → Nat) {st : BitcaskStore}
    (hWF : WF st) :
    ∃ st2, compaction_manager sz st = (st2, .ok ()) ∧ WF st2 ∧
      (∀ k v, getOp st k = .ok (some v) → getOp st2 k = .ok (some v)) ∧
      (∀ k, lookupIdx st.mem_index k = none → lookupIdx st2.mem_index k = none) := by
  have hWF1 := WF_log_writer_init hWF
  by_cases hlen : activeLen sz (log_writer_init st) < MAX_FILE_SIZE
  · refine ⟨log_writer_init st, ?_, hWF1, ?_, ?_⟩
    · unfold compaction_manager
      rw [if_pos hlen]
    · intro k v h
      exact getOp_some_mono (log_writer_init_mem_index st)
        (log_writer_init_extends st) h
    · intro k h
      rw [log_writer_init_mem_index]
      exact h
  · have hkeysSome : ∀ k,
        k ∈ (log_writer_init st).mem_index.map (fun p => p.1) →
        (lookupIdx (log_writer_init st).mem_index k).isSome := by
      intro k hk
      exact lookup_isSome_of_mem_fst _ k hk
    have hAcc0 : AccOK { segs := [(1, [])], cid := 1, idx := [] } := by
      refine ⟨?_, ?_, ?_⟩
      · intro id hid
        simp [segIds] at hid
        simp [hid]
      · simp [getSeg]
      · intro k md h
        simp [lookupIdx] at h
    obtain ⟨acc, hloop, hAccF, -, -, huntouched, hproc⟩ :=
      compactLoop_spec sz hWF1 ((log_writer_init st).mem_index.map (fun p => p.1))
        { segs := [(1, [])], cid := 1, idx := [] } hAcc0 hkeysSome
    refine ⟨{ mem_index := acc.idx, segments := acc.segs, current_log_id := acc.cid + 1, log_writer := false, clock := (log_writer_init st).clock }, ?_, ?_, ?_, ?_⟩
    · unfold compaction_manager
      rw [if_neg hlen]
      dsimp only
      rw [hloop]
    · constructor
      · intro k md h
        exact hAccF.idx_ok k md h
      · intro h
        exact absurd h (by simp)
    · intro k v h
      obtain ⟨md, hl, hg⟩ := getOp_some_elim h
      obtain ⟨-, e, hE, hev, hv⟩ := get_val_metadata_some_elim hg
      have hl1 : lookupIdx (log_writer_init st).mem_index k = some md := by
        rw [log_writer_init_mem_index]
        exact hl
      have hkmem : k ∈ (log_writer_init st).mem_index.map (fun p => p.1) :=
        mem_fst_of_lookup_some _ k md hl1
      obtain ⟨md', v', md2, hl1', hg1', hv', hlk2, hts2, hE2⟩ := hproc k hkmem
      have hg1 : get_val_metadata (log_writer_init st) k = .ok (some (v, md)) := by
        have hstep := get_val_metadata_of_entry hl1
          (entryAt_mono (log_writer_init_extends st) hE) (hev ▸ hv)
        rw [hev] at hstep
        exact hstep
      have hvv : v = v' := by
        have h12 := hg1.symm.trans hg1'
        exact (by simpa using h12 : v = v' ∧ md = md').1
      have hfin : getOp { mem_index := acc.idx, segments := acc.segs, current_log_id := acc.cid + 1, log_writer := false, clock := (log_writer_init st).clock } k = .ok (some v') :=
        getOp_of_entry hlk2 hE2 (by exact hv')
      rw [hvv]
      exact hfin
    · intro k h
      have hl1 : lookupIdx (log_writer_init st).mem_index k = none := by
        rw [log_writer_init_mem_index]
        exact h
      have hnk : k ∉ (log_writer_init st).mem_index.map (fun p => p.1) := by
        have := (lookupIdx_none_iff (log_writer_init st).mem_index k).mp hl1
        exact this
      rw [huntouched k hnk]
      rfl

/-! Specifications of set and remove on well-formed stores. -/

theorem setOp_spec (ts : Nat → Nat) (sz : LogEntry → Nat) (k v : String)
    {st : BitcaskStore} (hWF : WF st) (hv : v ≠ TOMBSTONE) :
    ∃ st2, setOp ts sz k v st = (st2, .ok ()) ∧ WF st2 ∧
      getOp st2 k = .ok (some v) := by
  have hWF1 : WF { st with clock := st.clock + 1 } := ⟨hWF.index_ok, hWF.writer_ok⟩
  set stInit := log_writer_init { st with clock := st.clock + 1 } with hInit
  obtain ⟨seg, hseg⟩ := Option.isSome_iff_exists.mp (log_writer_init_active_isSome hWF1)
  set entry : LogEntry := { key := k, val := v, timestamp := ts st.clock } with hent
  set md4 : ValueMetadata :=
    { log_pointer := ((getSeg stInit.segments stInit.current_log_id).getD []).length,
      log_id := stInit.current_log_id, timestamp := ts stInit.clock } with hmd4
  set st4 : BitcaskStore :=
    { stInit with
      segments := appendSeg stInit.segments stInit.current_log_id entry,
      mem_index := insertIdx stInit.mem_index k md4,
      clock := stInit.clock + 1 } with hst4
  have hsetEq : setOp ts sz k v st = compaction_manager sz st4 := by
    rw [hst4, hInit, hmd4, hent]
    rfl
  have hWFInit : WF stInit := WF_log_writer_init hWF1
  have hmemInit : stInit.mem_index = st.mem_index := by
    rw [hInit]
    exact log_writer_init_mem_index _
  have hoffset : md4.log_pointer = seg.length := by
    rw [hmd4]
    simp [hseg]
  have hsegNew : getSeg st4.segments st4.current_log_id = some (seg ++ [entry]) := by
    rw [show st4.segments = appendSeg stInit.segments stInit.current_log_id entry from rfl,
      show st4.current_log_id = stInit.current_log_id from rfl]
    rw [getSeg_appendSeg_self, hseg]
    rfl
  have hE4 : EntryAt st4.segments md4 entry := by
    refine ⟨seg ++ [entry], ?_, ?_⟩
    · rw [show md4.log_id = stInit.current_log_id from rfl]
      exact hsegNew
    · rw [hoffset]
      exact List.getElem?_concat_length seg entry
  have hextAll : SegsExtend st.segments st4.segments := by
    have h1 : SegsExtend st.segments stInit.segments := by
      rw [hInit]
      exact log_writer_init_extends { st with clock := st.clock + 1 }
    have h2 : SegsExtend stInit.segments st4.segments := by
      rw [show st4.segments = appendSeg stInit.segments stInit.current_log_id entry from rfl]
      exact segsExtend_appendSeg _ _ _
    exact segsExtend_trans h1 h2
  have hWF4 : WF st4 := by
    constructor
    · intro k2 md' hmem2
      rw [show st4.mem_index = insertIdx stInit.mem_index k md4 from rfl] at hmem2
      by_cases hkk : k2 = k
      · subst hkk
        rw [lookupIdx_insert_self] at hmem2
        obtain rfl := Option.some.inj hmem2
        exact ⟨entry, hE4, rfl, hv⟩
      · rw [lookupIdx_insert_ne _ _ _ _ hkk, hmemInit] at hmem2
        exact goodPtr_mono hextAll (hWF.index_ok k2 md' hmem2)
    · intro _
      rw [hsegNew]
      rfl
  have hget4 : getOp st4 k = .ok (some v) := by
    have hl4 : lookupIdx st4.mem_index k = some md4 := by
      rw [show st4.mem_index = insertIdx stInit.mem_index k md4 from rfl]
      exact lookupIdx_insert_self _ _ _
    exact getOp_of_entry hl4 hE4 hv
  obtain ⟨st2, hcm, hWF2, hpres, -⟩ := compaction_manager_spec sz hWF4
  refine ⟨st2, ?_, hWF2, hpres k v hget4⟩
  rw [hsetEq]
  exact hcm

theorem removeOp_spec (ts : Nat → Nat) (sz : LogEntry → Nat) (k : String)
    {st : BitcaskStore} (hWF : WF st) {md : ValueMetadata}
    (hmem : lookupIdx st.mem_index k = some md) :
    ∃ st2, removeOp ts sz true k st = (st2, .ok ()) ∧ WF st2 ∧
      lookupIdx st2.mem_index k = none ∧ getOp st2 k = .ok none := by
  have hWF1 : WF { st with mem_index := eraseKey st.mem_index k, clock := st.clock + 1 } := by
    constructor
    · intro k2 md' hmem2
      have hkk : k2 ≠ k := by
        intro h
        subst h
        rw [lookupIdx_erase_self] at hmem2
        exact Option.noConfusion hmem2
      rw [lookupIdx_erase_ne _ _ _ hkk] at hmem2
      exact hWF.index_ok k2 md' hmem2
    · exact hWF.writer_ok
  set stE := { st with mem_index := eraseKey st.mem_index k, clock := st.clock + 1 } with hE
  set stInit := log_writer_init stE with hInit
  obtain ⟨seg, hseg⟩ := Option.isSome_iff_exists.mp (log_writer_init_active_isSome hWF1)
  set tomb : LogEntry := { key := k, val := TOMBSTONE, timestamp := ts st.clock } with htomb
  set st4 : BitcaskStore :=
    { stInit with
      segments := appendSeg stInit.segments stInit.current_log_id tomb } with hst4
  have hremEq : removeOp ts sz true k st = compaction_manager sz st4 := by
    unfold removeOp
    rw [hmem]
    rfl
  have hmemInit : stInit.mem_index = eraseKey st.mem_index k := by
    rw [hInit]
    exact log_writer_init_mem_index stE
  have hsegNew : getSeg st4.segments st4.current_log_id = some (seg ++ [tomb]) := by
    rw [show st4.segments = appendSeg stInit.segments stInit.current_log_id tomb from rfl,
      show st4.current_log_id = stInit.current_log_id from rfl]
    rw [getSeg_appendSeg_self, hseg]
    rfl
  have hextAll : SegsExtend stE.segments st4.segments := by
    have h1 : SegsExtend stE.segments stInit.segments := by
      rw [hInit]
      exact log_writer_init_extends stE
    have h2 : SegsExtend stInit.segments st4.segments := by
      rw [show st4.segments = appendSeg stInit.segments stInit.current_log_id tomb from rfl]
      exact segsExtend_appendSeg _ _ _
    exact segsExtend_trans h1 h2
  have hWF4 : WF st4 := by
    constructor
    · intro k2 md' hmem2
      rw [show st4.mem_index = stInit.mem_index from rfl, hmemInit] at hmem2
      have hkk : k2 ≠ k := by
        intro h
        subst h
        rw [lookupIdx_erase_self] at hmem2
        exact Option.noConfusion hmem2
      rw [lookupIdx_erase_ne _ _ _ hkk] at hmem2
      exact goodPtr_mono hextAll (hWF.index_ok k2 md' hmem2)
    · intro _
      rw [hsegNew]
      rfl
  have hnone4 : lookupIdx st4.mem_index k = none := by
    rw [show st4.mem_index = stInit.mem_index from rfl, hmemInit]
    exact lookupIdx_erase_self _ _
  obtain ⟨st2, hcm, hWF2, -, hnone⟩ := compaction_manager_spec sz hWF4
  have hn2 := hnone k hnone4
  refine ⟨st2, ?_, hWF2, hn2, getOp_of_none hn2⟩
  rw [hremEq]
  exact hcm

/-! KeyNotFound is produced exactly by the missing-index check of remove. -/

theorem get_val_metadata_not_KNF (st : BitcaskStore) (k : String) :
    get_val_metadata st k ≠ .error .KeyNotFoundError := by
  unfold get_val_metadata
  cases lookupIdx st.mem_index k with
  | none => simp
  | some md =>
    dsimp only
    cases getSeg st.segments md.log_id with
    | none => simp
    | some seg =>
      dsimp only
      cases seg[md.log_pointer]? with
      | none => simp
      | some e =>
        dsimp only
        by_cases hv : e.val = TOMBSTONE
        · rw [if_pos hv]
          simp
        · rw [if_neg hv]
          simp

theorem compactKey_not_KNF (sz : LogEntry → Nat) (st : BitcaskStore)
    (acc : CompactAcc) (k : String) :
    compactKey sz st acc k ≠ .error .KeyNotFoundError := by
  unfold compactKey
  cases hg : get_val_metadata st k with
  | error e =>
    intro h
    simp only [Except.error.injEq] at h
    rw [h] at hg
    exact get_val_metadata_not_KNF st k hg
  | ok o =>
    cases o with
    | none => simp
    | some p => simp

theorem compactLoop_not_KNF (sz : LogEntry → Nat) (st : BitcaskStore) :
    ∀ (keys : List String) (acc : CompactAcc),
      compactLoop sz st keys acc ≠ .error .KeyNotFoundError := by
  intro keys
  induction keys with
  | nil =>
    intro acc
    simp [compactLoop]
  | cons kh rest ih =>
    intro acc
    unfold compactLoop
    cases hk : compactKey sz st acc kh with
    | error e =>
      intro h
      simp only [Except.error.injEq] at h
      rw [h] at hk
      exact compactKey_not_KNF sz st acc kh hk
    | ok acc2 => exact ih acc2

theorem compaction_manager_not_KNF (sz : LogEntry → Nat) (st : BitcaskStore) :
    (compaction_manager sz st).2 ≠ .error .KeyNotFoundError := by
  unfold compaction_manager
  by_cases hlen : activeLen sz (log_writer_init st) < MAX_FILE_SIZE
  · rw [if_pos hlen]
    simp
  · rw [if_neg hlen]
    dsimp only
    cases hl : compactLoop sz (log_writer_init st)
        ((log_writer_init st).mem_index.map (fun p => p.1))
        { segs := [(1, [])], cid := 1, idx := [] } with
    | error e =>
      intro h
      rw [Except.error.inj h] at hl
      exact compactLoop_not_KNF sz (log_writer_init st) _ _ hl
    | ok acc => simp

theorem removeOp_KNF_iff (ts : Nat → Nat) (sz : LogEntry → Nat) (ok : Bool)
    (k : String) (st : BitcaskStore) :
    (removeOp ts sz ok k st).2 = .error .KeyNotFoundError ↔
      lookupIdx st.mem_index k = none := by
  cases hl : lookupIdx st.mem_index k with
  | none =>
    unfold removeOp
    rw [hl]
    simp
  | some md =>
    apply iff_of_false
    · unfold removeOp
      rw [hl]
      dsimp only
      cases ok with
      | true =>
        rw [if_pos rfl]
        exact compaction_manager_not_KNF sz _
      | false =>
        rw [if_neg (by simp)]
        simp
    · simp

/-- The freshly opened empty store is well-formed. -/
theorem WF_st0 : WF st0 := by
  constructor
  · intro k md h
    simp [st0, lookupIdx] at h
  · intro _
    rfl

/-- Claim C1 (corrected), amended: for every value other than the reserved
tombstone literal, on a well-formed engine state a successful `set(k,v)`
followed by `get(k)` returns `Some(v)`; moreover `set` always succeeds in the
fault-free model (including when it triggers a compaction). -/
theorem C1_roundtrip_amended (ts : Nat → Nat) (sz : LogEntry → Nat) (k v : String)
    (st : BitcaskStore) (hWF : WF st) (hv : v ≠ TOMBSTONE) :
    (setOp ts sz k v st).2 = .ok () ∧
    getOp (setOp ts sz k v st).1 k = .ok (some v) := by
  obtain ⟨st2, heq, -, hget⟩ := setOp_spec ts sz k v hWF hv
  rw [heq]
  exact ⟨rfl, hget⟩

/-- Witness for the amended claim C1 on the freshly opened store, with a size
model that does not trigger compaction, and on a one-megabyte record that
does trigger it. -/
theorem C1_roundtrip_amended_witness :
    ((setOp tsId szSmall "a" "b" st0).2 = .ok () ∧
      getOp (setOp tsId szSmall "a" "b" st0).1 "a" = .ok (some "b")) ∧
    ((setOp tsId szConstBig "a" "b" st0).2 = .ok () ∧
      getOp (setOp tsId szConstBig "a" "b" st0).1 "a" = .ok (some "b")) :=
  ⟨C1_roundtrip_amended tsId szSmall "a" "b" st0 WF_st0 (by decide),
   C1_roundtrip_amended tsId szConstBig "a" "b" st0 WF_st0 (by decide)⟩

/-- Claim C4 (corrected), counterexample.  The claim quantifies over every
value `v`, but for the reserved value `!tomb!` the claimed sequence can fail:
on a fresh store, `set("a", "!tomb!")` with a record of `MAX_FILE_SIZE` bytes
triggers compaction, whose read of the just-written key sees a tombstone and
aborts with `CompactionError`, so `set` itself fails and the sequence
`set(k,v); remove(k)` does not succeed. -/
theorem C4_tombstone_set_fails_counterexample :
    (setOp tsId szConstBig "a" "!tomb!" st0).2 =
      .error (.CompactionError
        ("a present in index not found on disk while compacting!")) := by decide

/-- Claim C4 (corrected), amended: for every value other than the reserved
tombstone literal, on a well-formed engine state `set(k,v); remove(k)`
succeeds, a following `get(k)` returns `None`, a second `remove(k)` fails
with `KeyNotFoundError`, and in general `remove` fails with `KeyNotFoundError`
exactly when the key is not in the in-memory index. -/
theorem C4_delete_amended (ts : Nat → Nat) (sz : LogEntry → Nat) (k v : String)
    (st : BitcaskStore) (hWF : WF st) (hv : v ≠ TOMBSTONE) :
    (setOp ts sz k v st).2 = .ok () ∧
    (removeOp ts sz true k (setOp ts sz k v st).1).2 = .ok () ∧
    getOp (removeOp ts sz true k (setOp ts sz k v st).1).1 k = .ok none ∧
    (removeOp ts sz true k
      (removeOp ts sz true k (setOp ts sz k v st).1).1).2 =
      .error .KeyNotFoundError ∧
    (∀ (st2 : BitcaskStore) (k2 : String) (apOk : Bool),
      (removeOp ts sz apOk k2 st2).2 = .error .KeyNotFoundError ↔
        lookupIdx st2.mem_index k2 = none) := by
  obtain ⟨stA, heqA, hWFA, hgetA⟩ := setOp_spec ts sz k v hWF hv
  obtain ⟨md, hmd, -⟩ := getOp_some_elim hgetA
  obtain ⟨stB, heqB, hWFB, hnoneB, hgetB⟩ := removeOp_spec ts sz k hWFA hmd
  have hsecond : removeOp ts sz true k stB = (stB, .error .KeyNotFoundError) := by
    unfold removeOp
    rw [hnoneB]
  refine ⟨by rw [heqA], ?_, ?_, ?_,
    fun st2 k2 apOk => removeOp_KNF_iff ts sz apOk k2 st2⟩
  · rw [heqA]
    show (removeOp ts sz true k stA).2 = .ok ()
    rw [heqB]
  · rw [heqA]
    show getOp (removeOp ts sz true k stA).1 k = .ok none
    rw [heqB]
    exact hgetB
  · rw [heqA]
    show (removeOp ts sz true k (removeOp ts sz true k stA).1).2 =
      .error .KeyNotFoundError
    rw [heqB]
    show (removeOp ts sz true k stB).2 = .error .KeyNotFoundError
    rw [hsecond]

/-- Witness for the amended claim C4 on the freshly opened store. -/
theorem C4_delete_amended_witness :
    (setOp tsId szSmall "a" "b" st0).2 = .ok () ∧
    (removeOp tsId szSmall true "a" (setOp tsId szSmall "a" "b" st0).1).2 = .ok () ∧
    getOp (removeOp tsId szSmall true "a"
      (setOp tsId szSmall "a" "b" st0).1).1 "a" = .ok none ∧
    (removeOp tsId szSmall true "a"
      (removeOp tsId szSmall true "a" (setOp tsId szSmall "a" "b" st0).1).1).2 =
      .error .KeyNotFoundError ∧
    (∀ (st2 : BitcaskStore) (k2 : String) (apOk : Bool),
      (removeOp tsId szSmall apOk k2 st2).2 = .error .KeyNotFoundError ↔
        lookupIdx st2.mem_index k2 = none) :=
  C4_delete_amended tsId szSmall "a" "b" st0 WF_st0 (by decide)

/-! Analysis of the directory enumeration and of open. -/

theorem enumGo_spec (files : List (String × List LogEntry)) :
    ∀ (readers : Segments) (latest : Nat) (r : Segments) (l : Nat),
      enumGo files readers latest = .ok (r, l) →
      (∀ id ∈ segIds readers, id ≤ latest) →
      (latest = 0 ∨ latest ∈ segIds readers) →
      (∀ id ∈ segIds r, id ≤ l) ∧ (l = 0 ∨ l ∈ segIds r) ∧ latest ≤ l := by
  induction files with
  | nil =>
    intro readers latest r l h hle hmem
    unfold enumGo at h
    simp only [Except.ok.injEq, Prod.mk.injEq] at h
    obtain ⟨rfl, rfl⟩ := h
    exact ⟨hle, hmem, Nat.le_refl latest⟩
  | cons p rest ih =>
    intro readers latest r l h hle hmem
    obtain ⟨name, content⟩ := p
    unfold enumGo at h
    cases hp : parseLogId name with
    | none =>
      rw [hp] at h
      simp at h
    | some id =>
      rw [hp] at h
      dsimp only at h
      have hle2 : ∀ id2 ∈ segIds (setSeg readers id content), id2 ≤ max latest id := by
        intro id2 hid2
        rcases segIds_setSeg_mem readers id id2 content hid2 with hold | heq
        · exact Nat.le_trans (hle id2 hold) (Nat.le_max_left latest id)
        · exact heq ▸ Nat.le_max_right latest id
      have hmem2 : max latest id = 0 ∨ max latest id ∈ segIds (setSeg readers id content) := by
        by_cases hli : latest ≤ id
        · rw [Nat.max_eq_right hli]
          exact Or.inr (mem_segIds_setSeg_self readers id content)
        · rw [Nat.max_eq_left (Nat.le_of_not_le hli)]
          rcases hmem with h0 | hin
          · exact absurd (h0 ▸ Nat.zero_le id) hli
          · exact Or.inr (mem_segIds_preserved_setSeg readers id latest content hin)
      obtain ⟨hA, hB, hC⟩ := ih (setSeg readers id content) (max latest id) r l h hle2 hmem2
      exact ⟨hA, hB, Nat.le_trans (Nat.le_max_left latest id) hC⟩

theorem enumGo_error (files : List (String × List LogEntry)) :
    ∀ (readers : Segments) (latest : Nat),
      (∃ p ∈ files, parseLogId p.1 = none) →
      enumGo files readers latest = .error .ParseIntError := by
  induction files with
  | nil =>
    intro readers latest h
    obtain ⟨p, hp, -⟩ := h
    simp at hp
  | cons q rest ih =>
    intro readers latest h
    obtain ⟨name, content⟩ := q
    unfold enumGo
    cases hp : parseLogId name with
    | none => rfl
    | some id =>
      dsimp only
      apply ih
      obtain ⟨p, hpmem, hpnone⟩ := h
      rcases List.mem_cons.mp hpmem with heq | hmem
      · subst heq
        simp only at hpnone
        rw [hp] at hpnone
        exact Option.noConfusion hpnone
      · exact ⟨p, hmem, hpnone⟩

theorem enumGo_ok_latest (files : List (String × List LogEntry)) :
    ∀ (readers : Segments) (latest : Nat),
      (∀ p ∈ files, (parseLogId p.1).isSome) →
      ∃ r, enumGo files readers latest =
        .ok (r, files.foldl (fun a p => max a ((parseLogId p.1).getD 0)) latest) := by
  induction files with
  | nil =>
    intro readers latest _
    exact ⟨readers, rfl⟩
  | cons q rest ih =>
    intro readers latest hall
    obtain ⟨name, content⟩ := q
    have hq : (parseLogId name).isSome :=
      hall (name, content) (List.mem_cons_self _ _)
    obtain ⟨id, hid⟩ := Option.isSome_iff_exists.mp hq
    obtain ⟨r, hr⟩ := ih (setSeg readers id content) (max latest id)
      (fun p hp => hall p (List.mem_cons_of_mem _ hp))
    refine ⟨r, ?_⟩
    unfold enumGo
    rw [hid]
    dsimp only
    rw [hr]
    simp only [List.foldl_cons, hid, Option.getD_some]

/-- Elimination principle for a successful `openBitcask`: the shape of the
resulting store in each branch of the code. -/
theorem openBitcask_ok_elim (sled ext : Bool)
    (dirC : Option (List (String × List LogEntry))) (order : List Nat)
    (st : BitcaskStore) (h : openBitcask sled ext dirC order = .ok st) :
    sled = false ∧ ext = false ∧
    ((dirC = none ∧
      st = { mem_index := [], segments := [(1, [])], current_log_id := 1,
             log_writer := true, clock := 0 }) ∨
     (∃ files r l, dirC = some files ∧ enumerateLogs files = .ok (r, l) ∧
       ((l ≠ 0 ∧ files.any (fun p => p.1 == toString l ++ ".db") = true ∧
         st = { mem_index := replayAll (orderSegs r order) [], segments := r,
                current_log_id := l, log_writer := true, clock := 0 }) ∨
        (l = 0 ∧
         st = { mem_index := [], segments := setSeg r 1 [], current_log_id := 1,
                log_writer := true, clock := 0 })))) := by
  unfold openBitcask at h
  cases sled with
  | true => simp at h
  | false =>
    cases ext with
    | true => simp at h
    | false =>
      simp only [Bool.false_eq_true, if_false] at h
      refine ⟨rfl, rfl, ?_⟩
      cases dirC with
      | none =>
        left
        simp only [Except.ok.injEq] at h
        exact ⟨rfl, h.symm⟩
      | some files =>
        right
        dsimp only at h
        cases he : enumerateLogs files with
        | error e =>
          rw [he] at h
          simp at h
        | ok rl =>
          obtain ⟨r, l⟩ := rl
          rw [he] at h
          dsimp only at h
          refine ⟨files, r, l, rfl, he, ?_⟩
          by_cases hl : l ≠ 0
          · rw [if_pos hl] at h
            left
            cases hany : files.any (fun p => p.1 == toString l ++ ".db") with
            | false =>
              rw [hany] at h
              simp at h
            | true =>
              rw [hany, if_pos rfl] at h
              exact ⟨hl, rfl, (Except.ok.inj h).symm⟩
          · rw [if_neg hl] at h
            right
            simp only [Except.ok.injEq] at h
            exact ⟨Decidable.not_not.mp (by simpa using hl), h.symm⟩

/-- Claim C7 (corrected), amended: `open` identifies segments by stripping
the final extension of each directory entry and parsing the remainder as u64
(any extension is accepted, not only `.db`); a file whose stem does not parse
makes `open` fail with the propagated parse error instead of being ignored;
when every entry parses, the active segment id chosen is the maximum parsed
id (or 1 on an effectively empty directory). -/
theorem C7_enumeration_amended (files : List (String × List LogEntry))
    (order : List Nat) (st : BitcaskStore) :
    (openBitcask false false (some files) order = .ok st →
      files.all (fun p => (parseLogId p.1).isSome) = true ∧
      st.current_log_id = max (maxParsed files) 1) ∧
    (files.all (fun p => (parseLogId p.1).isSome) = false →
      openBitcask false false (some files) order = .error .ParseIntError) := by
  constructor
  · intro h
    obtain ⟨-, -, hbranch⟩ := openBitcask_ok_elim false false (some files) order st h
    rcases hbranch with ⟨hnone, -⟩ | ⟨files2, r, l, heq, henum, hcases⟩
    · exact Option.noConfusion hnone
    · obtain rfl : files = files2 := Option.some.inj heq
      have hall : files.all (fun p => (parseLogId p.1).isSome) = true := by
        by_contra hfalse
        have hex : ∃ p ∈ files, parseLogId p.1 = none := by
          by_contra hnone2
          push_neg at hnone2
          have hx : files.all (fun p => (parseLogId p.1).isSome) = true := by
            rw [List.all_eq_true]
            intro p hp
            cases hpp : parseLogId p.1 with
            | none => exact absurd hpp (hnone2 p hp)
            | some _ => rfl
          exact hfalse hx
        have := enumGo_error files [] 0 hex
        have hcontr : (.error .ParseIntError : Except HobbesError (Segments × Nat)) =
            .ok (r, l) := by
          rw [← this]
          exact henum
        exact Except.noConfusion hcontr
      refine ⟨hall, ?_⟩
      have hforall : ∀ p ∈ files, (parseLogId p.1).isSome := by
        intro p hp
        exact (List.all_eq_true.mp hall) p hp
      obtain ⟨r2, hr2⟩ := enumGo_ok_latest files [] 0 hforall
      have henum2 : enumerateLogs files = .ok (r2, maxParsed files) := hr2
      have hlm : l = maxParsed files := by
        rw [henum] at henum2
        exact (Prod.mk.injEq _ _ _ _ ▸ Except.ok.inj henum2).2
      rcases hcases with ⟨hl0, -, hst⟩ | ⟨hl0, hst⟩
      · subst hst
        show l = max (maxParsed files) 1
        rw [← hlm]
        exact (Nat.max_eq_left (Nat.one_le_iff_ne_zero.mpr hl0)).symm
      · subst hst
        show 1 = max (maxParsed files) 1
        rw [← hlm, hl0]
        decide
  · intro hfalse
    have hex : ∃ p ∈ files, parseLogId p.1 = none := by
      by_contra hnone2
      push_neg at hnone2
      have hx : files.all (fun p => (parseLogId p.1).isSome) = true := by
        rw [List.all_eq_true]
        intro p hp
        cases hpp : parseLogId p.1 with
        | none => exact absurd hpp (hnone2 p hp)
        | some _ => rfl
      rw [hx] at hfalse
      exact Bool.noConfusion hfalse
    have henum := enumGo_error files [] 0 hex
    unfold openBitcask
    simp only [Bool.false_eq_true, if_false]
    rw [show enumerateLogs files = .error .ParseIntError from henum]

/-- Witness for the amended claim C7: a directory with a non-parsing filename
makes open fail; a directory holding only `2.db` opens with active id 2. -/
theorem C7_enumeration_amended_witness :
    openBitcask false false (some [("notes.txt", [])]) [] = .error .ParseIntError ∧
    (List.all [("2.db", ([] : List LogEntry))] (fun p => (parseLogId p.1).isSome) = true ∧
      stG.current_log_id = max (maxParsed [("2.db", [])]) 1) := by
  constructor
  · exact (C7_enumeration_amended [("notes.txt", [])] [] st0).2 (by decide)
  · exact (C7_enumeration_amended [("2.db", [])] [] stG).1 (by decide)

/-! Segment-id bounds of the compaction loop, independent of well-formedness. -/

theorem rollAcc_ids (sz : LogEntry → Nat) (acc : CompactAcc)
    (hids : ∀ id ∈ segIds acc.segs, id ≤ acc.cid) :
    (∀ id ∈ segIds (rollAcc sz acc).segs, id ≤ (rollAcc sz acc).cid) ∧
    acc.cid ≤ (rollAcc sz acc).cid := by
  unfold rollAcc
  by_cases h : compactFileLen sz acc ≥ MAX_FILE_SIZE
  · rw [if_pos h]
    refine ⟨?_, Nat.le_succ _⟩
    intro id hid
    rcases segIds_createSeg_mem acc.segs (acc.cid + 1) id hid with hold | heq
    · exact Nat.le_succ_of_le (hids id hold)
    · exact Nat.le_of_eq heq
  · rw [if_neg h]
    exact ⟨hids, Nat.le_refl _⟩

theorem compactKey_ids (sz : LogEntry → Nat) (st : BitcaskStore)
    (acc acc2 : CompactAcc) (k : String) (h : compactKey sz st acc k = .ok acc2)
    (hids : ∀ id ∈ segIds acc.segs, id ≤ acc.cid) :
    (∀ id ∈ segIds acc2.segs, id ≤ acc2.cid) ∧ acc.cid ≤ acc2.cid := by
  obtain ⟨hr1, hr2⟩ := rollAcc_ids sz acc hids
  unfold compactKey at h
  cases hg : get_val_metadata st k with
  | error e =>
    rw [hg] at h
    exact absurd h (by simp)
  | ok o =>
    rw [hg] at h
    cases o with
    | none => simp at h
    | some p =>
      obtain ⟨v, md⟩ := p
      dsimp only at h
      obtain rfl := Except.ok.inj h
      refine ⟨?_, hr2⟩
      intro id hid
      dsimp only at hid ⊢
      rw [segIds_appendSeg] at hid
      exact hr1 id hid

theorem compactLoop_ids (sz : LogEntry → Nat) (st : BitcaskStore) :
    ∀ (keys : List String) (acc acc2 : CompactAcc),
      compactLoop sz st keys acc = .ok acc2 →
      (∀ id ∈ segIds acc.segs, id ≤ acc.cid) →
      ∀ id ∈ segIds acc2.segs, id ≤ acc2.cid := by
  intro keys
  induction keys with
  | nil =>
    intro acc acc2 h hids
    obtain rfl := Except.ok.inj h
    exact hids
  | cons kh rest ih =>
    intro acc acc2 h hids
    unfold compactLoop at h
    cases hk : compactKey sz st acc kh with
    | error e =>
      rw [hk] at h
      exact absurd h (by simp)
    | ok acc1 =>
      rw [hk] at h
      exact ih acc1 acc2 h (compactKey_ids sz st acc acc1 kh hk hids).1

/-- Claim C9 (confirmed).  Segment monotonicity: after a successful `open`,
`current_log_id` is present among the segment ids on disk and is the maximum
of them; after a compaction that actually ran (the active segment had reached
the threshold) and completed, the writer is dropped and `current_log_id` is
the last compacted id plus one, which strictly exceeds every segment id on
disk — so every subsequent append goes to the segment with the largest id. -/
theorem C9_segment_monotonicity :
    (∀ (sled ext : Bool) (dirC : Option (List (String × List LogEntry)))
        (order : List Nat) (st : BitcaskStore),
      openBitcask sled ext dirC order = .ok st →
        st.current_log_id ∈ segIds st.segments ∧
        ∀ id ∈ segIds st.segments, id ≤ st.current_log_id) ∧
    (∀ (sz : LogEntry → Nat) (st st2 : BitcaskStore),
      compaction_manager sz st = (st2, .ok ()) →
      MAX_FILE_SIZE ≤ activeLen sz (log_writer_init st) →
        st2.log_writer = false ∧
        ∃ cid, st2.current_log_id = cid + 1 ∧
          ∀ id ∈ segIds st2.segments, id ≤ cid) := by
  constructor
  · intro sled ext dirC order st h
    obtain ⟨-, -, hbranch⟩ := openBitcask_ok_elim sled ext dirC order st h
    rcases hbranch with ⟨-, hst⟩ | ⟨files, r, l, -, henum, hcases⟩
    · subst hst
      refine ⟨by simp [segIds], ?_⟩
      intro id hid
      simp [segIds] at hid
      simp [hid]
    · obtain ⟨hle, hmem, -⟩ := enumGo_spec files [] 0 r l henum
        (by intro id hid; simp [segIds] at hid) (Or.inl rfl)
      rcases hcases with ⟨hl0, -, hst⟩ | ⟨hl0, hst⟩
      · subst hst
        dsimp only
        refine ⟨?_, hle⟩
        rcases hmem with h0 | hin
        · exact absurd h0 hl0
        · exact hin
      · subst hst
        dsimp only
        refine ⟨mem_segIds_setSeg_self r 1 [], ?_⟩
        intro id hid
        rcases segIds_setSeg_mem r 1 id [] hid with hold | heq
        · exact Nat.le_trans (hl0 ▸ hle id hold) (Nat.zero_le 1)
        · exact Nat.le_of_eq heq
  · intro sz st st2 h hbig
    unfold compaction_manager at h
    rw [if_neg (Nat.not_lt.mpr hbig)] at h
    dsimp only at h
    cases hl : compactLoop sz (log_writer_init st)
        ((log_writer_init st).mem_index.map (fun p => p.1))
        { segs := [(1, [])], cid := 1, idx := [] } with
    | error e =>
      rw [hl] at h
      simp at h
    | ok acc =>
      rw [hl] at h
      simp only [Prod.mk.injEq] at h
      obtain ⟨hst2, -⟩ := h
      subst hst2
      refine ⟨rfl, acc.cid, rfl, ?_⟩
      intro id hid
      dsimp only at hid
      refine compactLoop_ids sz (log_writer_init st) _ _ acc hl ?_ id hid
      intro id2 hid2
      simp [segIds] at hid2
      simp [hid2]

/-- Witness for claim C9: the fresh open (active id 1 over segment set `[1]`)
and a concrete completed compaction on a one-key store (writer dropped,
active id 2, compacted ids bounded by 1). -/
theorem C9_segment_monotonicity_witness :
    (st0.current_log_id ∈ segIds st0.segments ∧
      ∀ id ∈ segIds st0.segments, id ≤ st0.current_log_id) ∧
    (stW2.log_writer = false ∧ ∃ cid, stW2.current_log_id = cid + 1 ∧
      ∀ id ∈ segIds stW2.segments, id ≤ cid) := by
  constructor
  · exact C9_segment_monotonicity.1 false false none [] st0 (by decide)
  · exact C9_segment_monotonicity.2 szConstBig stW stW2 (by decide) (by decide)

end Hobbes
